import Mathlib

/-
Shallow embedding of the NeuraDB in-memory vector store
(src/vector-store.ts: classes `VectorStore` and `NeuraDB`).

Modelling conventions:
- JavaScript numbers are modelled as exact real numbers (ℝ).  Every
  `isFinite` check of the source is therefore vacuously true and is noted
  where it occurs.  Timestamps (`Date`) are modelled as natural numbers
  supplied explicitly as a `now` parameter to each mutating operation.
- The JS `Map<string, VectorDocument>` is modelled as an insertion-ordered
  list of documents: `set` on a present key overwrites in place keeping the
  position, `set` on a fresh key appends, `values()` iterates in insertion
  order (ECMAScript Map semantics).
- Thrown JS errors become `Except Err` results; each `Err` constructor
  corresponds to one `throw new Error(...)` site of the source.
- The OpenAI embedding capability is an opaque oracle
  `Provider : List String → List (List ℝ)` (the source re-sorts the
  provider response by index before use; the oracle yields the post-sort
  list directly).  Calls to the provider and inter-batch delays are
  recorded in an explicit event trace so that "how many provider calls
  happened before the error" is observable.  The `onProgress` callback of
  `addDocuments` only adds a progress report between chunks; its provider
  call/delay trace is identical to the no-progress path (each chunk is
  embedded by one call, with the same inter-chunk delays), so the model
  uses the single no-progress code path.
- `Array.prototype.sort` with comparator `(a, b) => b.similarity -
  a.similarity` is a stable descending sort by similarity (ECMAScript
  requires sort stability); it is modelled by the stable descending
  insertion sort `sortDesc`.
-/

/-- A metadata value (`Record<string, any>` values restricted to
JSON-like scalars, as in the spec's data model). -/
inductive MetaValue where
  | str (s : String)
  | num (q : ℚ)
  | boolean (b : Bool)
  | null
deriving DecidableEq

/-- A metadata mapping: association list from string keys to values
(first binding of a key wins, as in a JS object). -/
abbrev Metadata := List (String × MetaValue)

/-- A stored document (`VectorDocument` after validation: the embedding is
always present on stored documents). -/
structure Doc where
  id : String
  content : String
  embedding : List ℝ
  metadata : Option Metadata := none
  createdAt : ℕ := 0
  updatedAt : ℕ := 0

/-- An input document (`DocumentWithOptionalEmbedding`): the embedding and
the createdAt timestamp may be absent. -/
structure DocIn where
  id : String
  content : String
  embedding : Option (List ℝ) := none
  metadata : Option Metadata := none
  createdAt : Option ℕ := none

/-- The store state: the documents of the `Map`, in insertion order. -/
abbrev State := List Doc

/-- One throw site of the source.  Constructors are grouped by the message
of the corresponding `throw new Error(...)`. -/
inductive Err where
  | noId
  | emptyEmbedding
  | dimensionMismatch (got expected : ℕ)
  | emptyQuery
  | contentRequired
  | needEmbeddingOrFlag
  | invalidIdAt (i : ℕ)
  | duplicateIdInput (id : String) (i j : ℕ)
  | duplicateIdStore (id : String)
  | contentRequiredAt (i : ℕ) (id : String)
  | invalidEmbeddingAt (i : ℕ) (id : String)
  | dimensionMismatchAt (i : ℕ) (id : String) (got expected : ℕ)
  | invalidEmbeddingFor (id : String)
  | dimensionMismatchFor (id : String) (got expected : ℕ)
  | generatedDimMismatch (got expected : ℕ)
  | generatedInconsistent
  | providerCountMismatch
  | batchInconsistent (idA : String) (dimA : ℕ) (idB : String) (dimB : ℕ)
  | batchDimMismatch (got expected : ℕ)
deriving DecidableEq

/-- The two `DuplicateId` error kinds of the spec's error taxonomy:
a duplicate inside the input batch, or a collision with the table. -/
def Err.isDuplicateId : Err → Bool
  | .duplicateIdInput _ _ _ => true
  | .duplicateIdStore _ => true
  | _ => false

/-- An observable effect of a call: one embedding-provider invocation
(with the texts sent), or one inter-batch delay (milliseconds). -/
inductive Event where
  | call (texts : List String)
  | delay (ms : ℕ)
deriving DecidableEq

abbrev Trace := List Event

/-- The provider calls of a trace, in order (used to state "exactly one
provider call per chunk"). -/
def callsOf (tr : Trace) : List (List String) :=
  tr.filterMap (fun e =>
    match e with
    | .call c => some c
    | .delay _ => none)

/-- JavaScript `String.prototype.trim()`: strip leading and trailing
whitespace (modelled over the character list so that it is kernel-
reducible, unlike `String.trim`). -/
def jsTrim (s : String) : String :=
  ⟨((s.data.dropWhile Char.isWhitespace).reverse.dropWhile Char.isWhitespace).reverse⟩

/-- The opaque embedding capability: texts in, embedding vectors out
(already re-sorted by index, as the source does before use). -/
abbrev Provider := List String → List (List ℝ)

/-- `Map.set` semantics on the insertion-ordered document list: overwrite
in place when the id is present, append otherwise. -/
def mapSet (s : State) (d : Doc) : State :=
  if s.any (fun x => x.id = d.id) then
    s.map (fun x => if x.id = d.id then d else x)
  else s ++ [d]

/-- `getEmbeddingDimensions`: the embedding length of the first stored
document, or `none` when the store is empty. -/
def getEmbeddingDimensions (s : State) : Option ℕ :=
  s.head?.map (fun d => d.embedding.length)

/-- `validateDocument` (id and embedding checks; the source's
`isFinite` check on the components is vacuous over ℝ). -/
def validateDocument (id : String) (emb : List ℝ) : Option Err :=
  if id = "" then some .noId
  else if emb.isEmpty then some .emptyEmbedding
  else none

/-- `validateEmbeddingDimensions`: the embedding length must match the
table dimension when one is set. -/
def validateEmbeddingDimensions (s : State) (emb : List ℝ) : Bool :=
  match getEmbeddingDimensions s with
  | none => true
  | some dv => emb.length = dv

/-- `getDocument`. -/
def getDocument (s : State) (id : String) : Option Doc :=
  s.find? (fun d => d.id = id)

/-- `hasDocument`. -/
def hasDocument (s : State) (id : String) : Bool :=
  s.any (fun d => d.id = id)

/-- `removeDocument`: the new state and whether the id was present. -/
def removeDocument (s : State) (id : String) : State × Bool :=
  (s.filter (fun d => ¬ d.id = id), s.any (fun d => d.id = id))

/-- `clear`. -/
def clear (_ : State) : State := []

/-- `getAllDocuments`. -/
def getAllDocuments (s : State) : List Doc := s

/-- Key lookup in a metadata object (`doc.metadata![key]`); a missing key
yields `none`, which never equals a filter value. -/
def metaLookup (m : Metadata) (k : String) : Option MetaValue :=
  (m.find? (fun kv => kv.1 = k)).map (fun kv => kv.2)

/-- `filterByMetadata`: a document with no metadata never passes; otherwise
every (key, value) pair of the filter must equal the document's entry. -/
def filterByMetadata (docs : List Doc) (flt : Metadata) : List Doc :=
  docs.filter (fun d =>
    match d.metadata with
    | none => false
    | some m => flt.all (fun kv => metaLookup m kv.1 = some kv.2))

/-- `getDocumentsByMetadata`. -/
def getDocumentsByMetadata (s : State) (flt : Metadata) : List Doc :=
  filterByMetadata (getAllDocuments s) flt

/-- `getStats` memory estimate is not modelled (string byte counts);
the other stats are `size` and `getEmbeddingDimensions`. -/
def size (s : State) : ℕ := s.length

/-- `isEmpty`. -/
def isEmpty (s : State) : Bool := s.length = 0

/-- The dimension invariant of the spec: any two stored documents have
embeddings of equal length. -/
def DimInv (s : State) : Prop :=
  ∀ d₁ ∈ s, ∀ d₂ ∈ s, d₁.embedding.length = d₂.embedding.length

/-- `SimilarityMethod`. -/
inductive SimilarityMethod where
  | cosine
  | euclidean
  | dot
deriving DecidableEq

noncomputable section

/-- `dotProductSimilarity`: the raw dot product
(`reduce((sum, a, i) => sum + a * vecB[i], 0)`). -/
def dotProductSimilarity (a b : List ℝ) : ℝ :=
  (List.zipWith (fun x y => x * y) a b).sum

/-- The magnitude `Math.sqrt(vec.reduce((sum, a) => sum + a * a, 0))`
computed inline by `cosineSimilarity`. -/
def magnitude (a : List ℝ) : ℝ :=
  Real.sqrt ((a.map (fun x => x * x)).sum)

/-- `cosineSimilarity`: dot product over the product of magnitudes,
with an exact-zero guard on either magnitude. -/
def cosineSimilarity (a b : List ℝ) : ℝ :=
  if magnitude a = 0 ∨ magnitude b = 0 then 0
  else dotProductSimilarity a b / (magnitude a * magnitude b)

/-- `euclideanSimilarity`: `1 / (1 + L2-distance)`. -/
def euclideanSimilarity (a b : List ℝ) : ℝ :=
  1 / (1 + Real.sqrt ((List.zipWith (fun x y => (x - y) ^ 2) a b).sum))

/-- `calculateSimilarity`: dispatch on the method; a length mismatch is a
thrown error in the source, which the search loop catches and turns into
"skip this document", hence the `Option`. -/
def calculateSimilarity (m : SimilarityMethod) (a b : List ℝ) : Option ℝ :=
  if a.length = b.length then
    some (match m with
      | .cosine => cosineSimilarity a b
      | .euclidean => euclideanSimilarity a b
      | .dot => dotProductSimilarity a b)
  else none

/-- A search hit: document plus similarity score. -/
structure SearchResult where
  document : Doc
  similarity : ℝ

/-- `SearchOptions`, with the source's destructuring defaults folded in
as field defaults. -/
structure SearchOptions where
  limit : ℕ := 10
  threshold : ℝ := 0
  similarityMethod : SimilarityMethod := .cosine
  metadataFilter : Option Metadata := none
  page : ℕ := 1
  pageSize : Option ℕ := none

/-- The scoring loop of `search`: score every candidate (skipping the ones
whose scoring throws, i.e. dimension mismatches) and keep scores that meet
the threshold (`similarity >= threshold`). -/
def scoreDocs (m : SimilarityMethod) (q : List ℝ) (thr : ℝ)
    (docs : List Doc) : List SearchResult :=
  (docs.filterMap (fun d =>
      (calculateSimilarity m q d.embedding).map (fun sim => ⟨d, sim⟩)))
    |>.filter (fun r => thr ≤ r.similarity)

/-- Candidate selection: the whole table, narrowed by `filterByMetadata`
when a metadata filter was supplied (a supplied-but-empty filter is
truthy in JS and is applied). -/
def candidateDocs (s : State) (mf : Option Metadata) : List Doc :=
  match mf with
  | none => s
  | some flt => filterByMetadata s flt

/-- One step of the stable descending insertion sort: `x` is placed before
the first element whose similarity does not exceed `x`'s. -/
def insertDesc (x : SearchResult) : List SearchResult → List SearchResult
  | [] => [x]
  | y :: ys => if y.similarity ≤ x.similarity then x :: y :: ys else y :: insertDesc x ys

/-- Stable descending sort by similarity, modelling
`results.sort((a, b) => b.similarity - a.similarity)` (stable by the
ECMAScript specification). -/
def sortDesc : List SearchResult → List SearchResult
  | [] => []
  | x :: xs => insertDesc x (sortDesc xs)

/-- The full sorted result list of a query before pagination:
filter → score → threshold → stable descending sort. -/
def fullResults (s : State) (q : List ℝ) (thr : ℝ) (m : SimilarityMethod)
    (mf : Option Metadata) : List SearchResult :=
  sortDesc (scoreDocs m q thr (candidateDocs s mf))

/-- A query: a pre-computed embedding vector or a text to embed. -/
inductive Query where
  | vec (v : List ℝ)
  | text (t : String)

/-- `generateEmbedding` (single text): one provider call; the first
returned vector is used. -/
def generateEmbedding (f : Provider) (t : String) : List ℝ × Trace :=
  ((f [t]).headD [], [.call [t]])

/-- The pagination step of `NeuraDB.search`: slice
`[(page-1)*pageSize, (page-1)*pageSize + pageSize)` when `pageSize` is
given, else the first `limit` results. -/
def paginate (sorted : List SearchResult) (opts : SearchOptions) : List SearchResult :=
  match opts.pageSize with
  | some ps => (sorted.drop ((opts.page - 1) * ps)).take ps
  | none => sorted.take opts.limit

namespace NeuraDB

/-- `NeuraDB.search`: empty-table short-circuit first, then query
resolution/validation, then the scoring pipeline and pagination. -/
def search (f : Provider) (s : State) (q : Query) (opts : SearchOptions) :
    (Except Err (List SearchResult)) × Trace :=
  if s.isEmpty then (.ok [], [])
  else
    match q with
    | .text t =>
      let (qe, tr) := generateEmbedding f t
      (.ok (paginate (fullResults s qe opts.threshold opts.similarityMethod opts.metadataFilter) opts), tr)
    | .vec v =>
      if v.isEmpty then (.error .emptyQuery, [])
      else (.ok (paginate (fullResults s v opts.threshold opts.similarityMethod opts.metadataFilter) opts), [])

/-- `Math.ceil(totalResults / pageSize)` over exact rationals. -/
def ceilDivNat (n k : ℕ) : ℕ := ⌈(n : ℚ) / (k : ℚ)⌉₊

/-- The pagination metadata object returned by `searchWithPagination`. -/
structure PageResult where
  data : List SearchResult
  page : ℕ
  pageSize : ℕ
  totalResults : ℕ
  totalPages : ℕ

/-- The non-empty-store tail of `searchWithPagination`: full sorted result
set, its slice for the requested page, and the totals. -/
def pagedResult (s : State) (qe : List ℝ) (opts : SearchOptions) (ps : ℕ) : PageResult :=
  let sorted := fullResults s qe opts.threshold opts.similarityMethod opts.metadataFilter
  { data := (sorted.drop ((opts.page - 1) * ps)).take ps
    page := opts.page
    pageSize := ps
    totalResults := sorted.length
    totalPages := ceilDivNat sorted.length ps }

/-- `NeuraDB.searchWithPagination`: same pipeline as `search` but always
returns pagination metadata; `pageSize` defaults to 10, and an empty table
yields zero totals. -/
def searchWithPagination (f : Provider) (s : State) (q : Query) (opts : SearchOptions) :
    (Except Err PageResult) × Trace :=
  let ps := opts.pageSize.getD 10
  if s.isEmpty then
    (.ok { data := [], page := opts.page, pageSize := ps, totalResults := 0, totalPages := 0 }, [])
  else
    match q with
    | .text t =>
      let (qe, tr) := generateEmbedding f t
      (.ok (pagedResult s qe opts ps), tr)
    | .vec v =>
      if v.isEmpty then (.error .emptyQuery, [])
      else (.ok (pagedResult s v opts ps), [])

end NeuraDB

namespace VectorStore

/-- Legacy `VectorStore.search` (the synchronous class): it throws the
query-validation error when the store is empty, throws on an empty query,
and otherwise runs the same pipeline with a plain `limit` cut. -/
def search (s : State) (q : List ℝ) (opts : SearchOptions) :
    Except Err (List SearchResult) :=
  if s.isEmpty then .error .emptyQuery
  else if q.isEmpty then .error .emptyQuery
  else .ok ((fullResults s q opts.threshold opts.similarityMethod opts.metadataFilter).take opts.limit)

end VectorStore

end

/-- `chunkArray`: split a list into consecutive chunks of `chunkSize`
(the last chunk may be shorter).  The JS loop does not terminate for
`chunkSize = 0`; the model returns `[]` in that unreachable configuration. -/
def chunkArray (l : List α) (k : ℕ) : List (List α) :=
  if _hk : k = 0 then []
  else if _hl : l.isEmpty then []
  else l.take k :: chunkArray (l.drop k) k
termination_by l.length
decreasing_by
  simp only [List.length_drop]
  have hne : l ≠ [] := by simpa [List.isEmpty_iff] using _hl
  have hpos : 0 < l.length := List.length_pos.mpr hne
  omega

namespace NeuraDB

/-- The chunked loop of `generateEmbeddings` (the `texts.length >
batchSize` path): one provider call per chunk in order, concatenating
results, with a delay after every chunk except the last when the delay is
positive. -/
def runBatches (f : Provider) (d : ℕ) : List (List String) → List (List ℝ) × Trace
  | [] => ([], [])
  | [c] => (f c, [.call c])
  | c :: c2 :: rest =>
    let (es, tr) := runBatches f d (c2 :: rest)
    (f c ++ es, .call c :: (if 0 < d then Event.delay d :: tr else tr))

/-- `NeuraDB.generateEmbeddings`: empty input short-circuits; at most
`batchSize` texts are embedded by a single provider call; larger inputs
are chunked by `chunkArray` and processed by `runBatches`. -/
def generateEmbeddings (f : Provider) (texts : List String) (batchSize batchDelay : ℕ) :
    List (List ℝ) × Trace :=
  if texts.isEmpty then ([], [])
  else if texts.length ≤ batchSize then (f texts, [.call texts])
  else runBatches f batchDelay (chunkArray texts batchSize)

/-- Stamp an input document with its resolved embedding and timestamps:
`createdAt` comes from the input when present (`document.createdAt ||
now`), `updatedAt` is always `now`. -/
def stampDoc (now : ℕ) (din : DocIn) (emb : List ℝ) : Doc :=
  { id := din.id, content := din.content, embedding := emb,
    metadata := din.metadata, createdAt := din.createdAt.getD now, updatedAt := now }

/-- The embedding-resolution prefix shared by `NeuraDB.addDocument` and
`NeuraDB.updateDocument`: generate an embedding from the content when
`createEmbedding` is set and none is present (an empty-array embedding is
truthy in JS and is passed through), else use the given one, else fail. -/
def resolveEmbedding (f : Provider) (din : DocIn) (createEmbedding : Bool) :
    Except Err (List ℝ × Trace) :=
  if createEmbedding && din.embedding.isNone then
    if din.content = "" then .error .contentRequired
    else .ok (generateEmbedding f din.content)
  else
    match din.embedding with
    | some e => .ok (e, [])
    | none => .error .needEmbeddingOrFlag

/-- `NeuraDB.addDocument`: resolve the embedding, validate, check the
table dimension, then `Map.set` (silently overwriting an existing id)
with timestamp stamping. -/
def addDocument (f : Provider) (now : ℕ) (s : State) (din : DocIn)
    (createEmbedding : Bool := false) : (Except Err State) × Trace :=
  match resolveEmbedding f din createEmbedding with
  | .error e => (.error e, [])
  | .ok p =>
    match validateDocument din.id p.1 with
    | some e => (.error e, p.2)
    | none =>
      if validateEmbeddingDimensions s p.1 then
        (.ok (mapSet s (stampDoc now din p.1)), p.2)
      else
        (.error (.dimensionMismatch p.1.length ((getEmbeddingDimensions s).getD 0)), p.2)

/-- The tail of `NeuraDB.updateDocument` once the existing document `ex`
has been found: resolve the embedding, validate, dimension-check, then
overwrite keeping `ex.createdAt`. -/
def updateResolved (f : Provider) (now : ℕ) (s : State) (din : DocIn)
    (createEmbedding : Bool) (ex : Doc) : (Except Err (State × Bool)) × Trace :=
  match resolveEmbedding f din createEmbedding with
  | .error e => (.error e, [])
  | .ok p =>
    match validateDocument din.id p.1 with
    | some e => (.error e, p.2)
    | none =>
      if validateEmbeddingDimensions s p.1 then
        (.ok (mapSet s { id := din.id, content := din.content, embedding := p.1,
                         metadata := din.metadata, createdAt := ex.createdAt,
                         updatedAt := now }, true), p.2)
      else
        (.error (.dimensionMismatch p.1.length ((getEmbeddingDimensions s).getD 0)), p.2)

/-- `NeuraDB.updateDocument`: a missing id is a `false` return before any
validation; otherwise the same checks as `addDocument`, but the stored
document keeps the existing `createdAt`. -/
def updateDocument (f : Provider) (now : ℕ) (s : State) (din : DocIn)
    (createEmbedding : Bool := false) : (Except Err (State × Bool)) × Trace :=
  match s.find? (fun d => d.id = din.id) with
  | none => (.ok (s, false), [])
  | some ex => updateResolved f now s din createEmbedding ex

/-- `AddDocumentsOptions`, with the constructor defaults
(`defaultBatchSize = 100`, `batchDelay = 1000`) folded in. -/
structure AddDocumentsOptions where
  createEmbedding : Bool := false
  batchSize : ℕ := 100
  batchDelay : ℕ := 1000

/-- The per-document embedding/content precondition of the `addDocuments`
pre-validation loop, as a decidable check: with `createEmbedding`, a
document lacking an embedding must have non-blank content; without it,
the document must carry a non-empty embedding matching the table
dimension (the `isFinite` check is vacuous over ℝ). -/
def embPrecheckOK (createEmbedding : Bool) (dim : Option ℕ) (d : DocIn) : Bool :=
  if createEmbedding then
    d.embedding.isSome || !(jsTrim d.content = "")
  else
    match d.embedding with
    | none => false
    | some e =>
      if e.isEmpty then false
      else
        match dim with
        | some dv => e.length = dv
        | none => true

/-- The first index `j ≠ i` whose id equals `id`
(`documents.findIndex(...)` in the duplicate check). -/
def dupIndex (ids : List String) (i : ℕ) (id : String) : Option ℕ :=
  (ids.enum.find? (fun p => decide (p.1 ≠ i) && decide (p.2 = id))).map (fun p => p.1)

/-- One iteration of the `addDocuments` pre-validation loop at index `i`:
id validity, in-batch duplicate, id already stored, then the
embedding/content precheck — the first failing check wins. -/
def docCheck (ids : List String) (storeIds : List String) (createEmbedding : Bool)
    (dim : Option ℕ) (i : ℕ) (d : DocIn) : Option Err :=
  if jsTrim d.id = "" then some (.invalidIdAt i)
  else
    match dupIndex ids i d.id with
    | some j => some (.duplicateIdInput d.id i j)
    | none =>
      if storeIds.any (fun x => x = d.id) then some (.duplicateIdStore d.id)
      else if createEmbedding then
        if d.embedding.isNone && jsTrim d.content = "" then
          some (.contentRequiredAt i d.id)
        else none
      else
        match d.embedding with
        | none => some (.invalidEmbeddingAt i d.id)
        | some e =>
          if e.isEmpty then some (.invalidEmbeddingAt i d.id)
          else
            match dim with
            | some dv =>
              if e.length = dv then none
              else some (.dimensionMismatchAt i d.id e.length dv)
            | none => none

/-- The pre-validation loop, threading the running index. -/
def preValidateAux (ids storeIds : List String) (createEmbedding : Bool)
    (dim : Option ℕ) : ℕ → List DocIn → Option Err
  | _, [] => none
  | i, d :: rest =>
    match docCheck ids storeIds createEmbedding dim i d with
    | some e => some e
    | none => preValidateAux ids storeIds createEmbedding dim (i + 1) rest

/-- The whole `addDocuments` pre-validation (before any provider call). -/
def preValidate (s : State) (docs : List DocIn) (createEmbedding : Bool) : Option Err :=
  preValidateAux (docs.map (fun d => d.id)) (s.map (fun d => d.id))
    createEmbedding (getEmbeddingDimensions s) 0 docs

/-- The validation applied to already-embedded documents while
partitioning, under `createEmbedding` (lines 770-793): non-empty
embedding and table-dimension match (`isFinite` vacuous over ℝ). -/
def havingCheck (dim : Option ℕ) (d : DocIn) : Option Err :=
  match d.embedding with
  | none => none
  | some e =>
    if e.isEmpty then some (.invalidEmbeddingFor d.id)
    else
      match dim with
      | some dv =>
        if e.length = dv then none
        else some (.dimensionMismatchFor d.id e.length dv)
      | none => none

/-- Validation of the generated embeddings (lines 838-852): the first
generated dimension must match the table's, and all generated embeddings
must agree with each other. -/
def checkGenerated (dim : Option ℕ) (gen : List (List ℝ)) : Option Err :=
  match gen with
  | [] => none
  | g :: _ =>
    match dim with
    | some dv =>
      if g.length = dv then
        if gen.any (fun e => ¬ e.length = g.length) then some .generatedInconsistent
        else none
      else some (.generatedDimMismatch g.length dv)
    | none =>
      if gen.any (fun e => ¬ e.length = g.length) then some .generatedInconsistent
      else none

/-- The final cross-batch dimension-consistency check (lines 866-889):
all documents to be written agree with the first, and the first agrees
with the table dimension when one is set. -/
def finalCheck (dim : Option ℕ) (fd : List (DocIn × List ℝ)) : Option Err :=
  match fd with
  | [] => none
  | (d0, e0) :: rest =>
    match rest.find? (fun p => ¬ p.2.length = e0.length) with
    | some p => some (.batchInconsistent d0.id e0.length p.1.id p.2.length)
    | none =>
      match dim with
      | some dv =>
        if e0.length = dv then none
        else some (.batchDimMismatch e0.length dv)
      | none => none

/-- The final write loop: stamp timestamps and `Map.set` every document. -/
def writeAll (s : State) (now : ℕ) (fd : List (DocIn × List ℝ)) : State :=
  fd.foldl (fun acc p => mapSet acc (stampDoc now p.1 p.2)) s

/-- The commit step shared by both `addDocuments` branches: final
dimension check, then write (the JS write loop cannot throw, so its
rollback handler is dead code). -/
def commit (s : State) (now : ℕ) (fd : List (DocIn × List ℝ)) : Except Err State :=
  match finalCheck (getEmbeddingDimensions s) fd with
  | some e => .error e
  | none => .ok (writeAll s now fd)

/-- The merge step of the `createEmbedding` branch of `addDocuments`:
validate the generated embeddings against the table dimension, re-zip
them onto the documents that needed them in order (a provider returning
fewer vectors than requested is an uncaught JS TypeError, modelled as
`providerCountMismatch`), then commit. -/
def mergePhase (s : State) (now : ℕ) (needing : List DocIn)
    (having : List (DocIn × List ℝ)) (g : List (List ℝ) × Trace) :
    (Except Err State) × Trace :=
  match checkGenerated (getEmbeddingDimensions s) g.1 with
  | some e => (.error e, g.2)
  | none =>
    if g.1.length < needing.length then (.error .providerCountMismatch, g.2)
    else (commit s now (having ++ needing.zip g.1), g.2)

/-- `NeuraDB.addDocuments`: empty input returns immediately; fail-fast
pre-validation (no provider call yet); with `createEmbedding` the batch is
partitioned into pass-through and to-embed documents, embeddings are
generated in chunks, validated and re-zipped in order; finally the whole
batch is dimension-checked and written.  A provider returning fewer
vectors than requested is an uncaught TypeError in JS, modelled as
`providerCountMismatch`. -/
def addDocuments (f : Provider) (now : ℕ) (s : State) (docs : List DocIn)
    (opts : AddDocumentsOptions := {}) : (Except Err State) × Trace :=
  if docs.isEmpty then (.ok s, [])
  else
    match preValidate s docs opts.createEmbedding with
    | some e => (.error e, [])
    | none =>
      if opts.createEmbedding then
        match docs.findSome? (havingCheck (getEmbeddingDimensions s)) with
        | some e => (.error e, [])
        | none =>
          let needing := docs.filter (fun d => d.embedding.isNone)
          let having : List (DocIn × List ℝ) :=
            docs.filterMap (fun d => d.embedding.map (fun e => (d, e)))
          let texts := needing.map (fun d => d.content)
          mergePhase s now needing having
            (generateEmbeddings f texts opts.batchSize opts.batchDelay)
      else
        let fd : List (DocIn × List ℝ) :=
          docs.filterMap (fun d => d.embedding.map (fun e => (d, e)))
        (commit s now fd, [])

end NeuraDB

/-! ### Shared concrete objects used by witnesses and counterexamples -/

/-- A trivial provider that returns no vectors (never consulted on the
paths where it appears). -/
def provider0 : Provider := fun _ => []

/-- A provider that embeds every text as the one-dimensional vector `[1]`. -/
def provider1 : Provider := fun ts => ts.map (fun _ => [1])

def docA : Doc := { id := "a", content := "", embedding := [1] }

def docB : Doc := { id := "b", content := "", embedding := [1] }

def docC : Doc := { id := "c", content := "", embedding := [1] }

def docX : Doc := { id := "x", content := "", embedding := [1, 0, 0] }

def docY : Doc := { id := "y", content := "", embedding := [0, 1, 0] }

def dinDim3 : DocIn := { id := "a", content := "c", embedding := some [0, 0, 0] }

def dinDim2 : DocIn := { id := "b", content := "c", embedding := some [0, 0] }

def dinA : DocIn := { id := "a", content := "c", embedding := some [1] }

def dinDup1 : DocIn := { id := "doc1", content := "c", embedding := some [1] }

def dinDup2 : DocIn := { id := "doc1", content := "d", embedding := some [1] }

def dinNoId1 : DocIn := { id := "", content := "c", embedding := some [1] }

def dinNoId2 : DocIn := { id := "", content := "d", embedding := some [2] }

def texts15 : List String :=
  ["t01", "t02", "t03", "t04", "t05", "t06", "t07", "t08",
   "t09", "t10", "t11", "t12", "t13", "t14", "t15"]

/-! ### Properties of the stable descending sort -/

theorem insertDesc_perm (x : SearchResult) (l : List SearchResult) :
    (insertDesc x l).Perm (x :: l) := by
  induction l with
  | nil => exact List.Perm.refl _
  | cons y ys ih =>
    simp only [insertDesc]
    split
    · exact List.Perm.refl _
    · exact (ih.cons y).trans (List.Perm.swap x y ys)

theorem sortDesc_perm (l : List SearchResult) : (sortDesc l).Perm l := by
  induction l with
  | nil => exact List.Perm.refl _
  | cons x xs ih => exact (insertDesc_perm x (sortDesc xs)).trans (ih.cons x)

theorem insertDesc_pairwise (x : SearchResult) (l : List SearchResult)
    (h : l.Pairwise (fun a b => b.similarity ≤ a.similarity)) :
    (insertDesc x l).Pairwise (fun a b => b.similarity ≤ a.similarity) := by
  induction l with
  | nil => simp [insertDesc]
  | cons y ys ih =>
    rw [List.pairwise_cons] at h
    obtain ⟨hy, hys⟩ := h
    simp only [insertDesc]
    split
    · rename_i hc
      refine List.Pairwise.cons ?_ (List.Pairwise.cons hy hys)
      intro z hz
      rcases List.mem_cons.mp hz with rfl | hz
      · exact hc
      · exact le_trans (hy z hz) hc
    · rename_i hc
      refine List.Pairwise.cons ?_ (ih hys)
      intro z hz
      rcases List.mem_cons.mp ((insertDesc_perm x ys).mem_iff.mp hz) with rfl | hz
      · exact le_of_not_le hc
      · exact hy z hz

theorem sortDesc_pairwise (l : List SearchResult) :
    (sortDesc l).Pairwise (fun a b => b.similarity ≤ a.similarity) := by
  induction l with
  | nil => simp [sortDesc]
  | cons x xs ih => exact insertDesc_pairwise x (sortDesc xs) ih

theorem insertDesc_filter_eq (x : SearchResult) (l : List SearchResult) (c : ℝ) :
    (insertDesc x l).filter (fun r => decide (r.similarity = c)) =
      (x :: l).filter (fun r => decide (r.similarity = c)) := by
  induction l with
  | nil => rfl
  | cons y ys ih =>
    simp only [insertDesc]
    split
    · rfl
    · rename_i hc
      by_cases hx : x.similarity = c
      · have hy : ¬ y.similarity = c := by
          have hlt : x.similarity < y.similarity := lt_of_not_le hc
          rw [hx] at hlt
          exact fun h => absurd (h ▸ hlt) (lt_irrefl c)
        simp [List.filter_cons, hx, hy, ih]
      · simp [List.filter_cons, hx, ih]

theorem sortDesc_filter_eq (l : List SearchResult) (c : ℝ) :
    (sortDesc l).filter (fun r => decide (r.similarity = c)) =
      l.filter (fun r => decide (r.similarity = c)) := by
  induction l with
  | nil => rfl
  | cons x xs ih =>
    calc (sortDesc (x :: xs)).filter (fun r => decide (r.similarity = c))
        = (x :: sortDesc xs).filter (fun r => decide (r.similarity = c)) :=
          insertDesc_filter_eq x (sortDesc xs) c
      _ = (x :: xs).filter (fun r => decide (r.similarity = c)) := by
          by_cases hx : x.similarity = c <;> simp [List.filter_cons, hx, ih]

/-! ### Claim C2 — search on a store with zero documents -/

/-- C2 (amended): on a store with zero documents, `NeuraDB.search` and
`NeuraDB.searchWithPagination` return an empty result set for every query
and options, without error and without consulting the provider; the
legacy `VectorStore.search`, however, throws on an empty store for every
query, so the claim does not hold of every store class in the source. -/
theorem claim_C2_empty_store (f : Provider) (q : Query) (opts : SearchOptions)
    (q2 : List ℝ) (opts2 : SearchOptions) :
    NeuraDB.search f [] q opts = (.ok [], [])
    ∧ NeuraDB.searchWithPagination f [] q opts =
        (.ok { data := [], page := opts.page, pageSize := opts.pageSize.getD 10,
               totalResults := 0, totalPages := 0 }, [])
    ∧ VectorStore.search [] q2 opts2 = .error .emptyQuery := by
  refine ⟨?_, ?_, ?_⟩ <;>
    simp [NeuraDB.search, NeuraDB.searchWithPagination, VectorStore.search]

/-- C2 counterexample: the claim says a search on a store with zero
documents never raises an error, but `VectorStore.search` on the empty
store raises the (query-message) error for the perfectly valid query
`[1]`. -/
theorem claim_C2_counterexample :
    VectorStore.search [] [1] {} = .error .emptyQuery := by
  simp [VectorStore.search]

/-! ### Claim C3 — empty vector query validation order -/

/-- C3 (amended): on every non-empty store, `NeuraDB.search` with an
empty vector query fails with the query-validation error; but the
empty-table short-circuit precedes query validation, so on an empty store
the same call returns `ok []` instead of failing. -/
theorem claim_C3_empty_query (f : Provider) (s : State) (opts : SearchOptions)
    (hs : s ≠ []) :
    NeuraDB.search f s (.vec []) opts = (.error .emptyQuery, [])
    ∧ NeuraDB.search f [] (.vec []) opts = (.ok [], []) := by
  constructor
  · cases s with
    | nil => exact absurd rfl hs
    | cons d t => simp [NeuraDB.search]
  · simp [NeuraDB.search]

/-- C3 witness: the amended claim at a concrete one-document store. -/
theorem claim_C3_witness :
    NeuraDB.search provider0 [docA] (.vec []) {} = (.error .emptyQuery, [])
    ∧ NeuraDB.search provider0 [] (.vec []) {} = (.ok [], []) :=
  claim_C3_empty_query provider0 [docA] {} (by simp)

/-- C3 counterexample: the claim says `search([])` fails on every store
state, and that query validation precedes the empty-table short-circuit;
on the empty store the call instead returns `ok []`, because the
empty-table check runs first. -/
theorem claim_C3_counterexample :
    NeuraDB.search provider0 [] (.vec []) {} = (.ok [], []) := by
  simp [NeuraDB.search]

/-! ### Claim C10 — empty metadata filter -/

/-- C10: with an empty filter object, `filterByMetadata` (hence
`getDocumentsByMetadata` and the `metadataFilter` narrowing used by
`search`) keeps exactly the documents that possess a metadata field —
even an empty mapping — and drops the rest, because the no-metadata
rejection runs before the per-key equality checks. -/
theorem claim_C10_empty_filter (s : State) (docs : List Doc) :
    filterByMetadata docs [] = docs.filter (fun d => d.metadata.isSome)
    ∧ getDocumentsByMetadata s [] = s.filter (fun d => d.metadata.isSome)
    ∧ candidateDocs s (some []) = s.filter (fun d => d.metadata.isSome) := by
  have key : ∀ ds : List Doc,
      filterByMetadata ds [] = ds.filter (fun d => d.metadata.isSome) := by
    intro ds
    unfold filterByMetadata
    apply List.filter_congr
    intro d _
    cases h : d.metadata <;> simp [h]
  exact ⟨key docs, key s, key s⟩

/-! ### Claim C4 — descending stable sort and the limit cut -/

theorem fullResults_nil (q : List ℝ) (thr : ℝ) (m : SimilarityMethod)
    (mf : Option Metadata) : fullResults [] q thr m mf = [] := by
  cases mf <;> simp [fullResults, candidateDocs, filterByMetadata, scoreDocs, sortDesc]

/-- C4: whenever `NeuraDB.search` succeeds with no `pageSize`, the
returned list is the first `limit` entries of the full sorted result
list; that list is sorted descending by similarity, is a permutation of
the thresholded hits, and preserves, for every score value, the exact
encounter-ordered subsequence of hits with that score (stability); the
`limit` default is 10. -/
theorem claim_C4_sorted_stable_limit (f : Provider) (s : State) (qv : List ℝ)
    (opts : SearchOptions) (r : List SearchResult) (tr : Trace)
    (hps : opts.pageSize = none)
    (hok : NeuraDB.search f s (.vec qv) opts = (.ok r, tr)) :
    r = (fullResults s qv opts.threshold opts.similarityMethod opts.metadataFilter).take opts.limit
    ∧ (fullResults s qv opts.threshold opts.similarityMethod opts.metadataFilter).Pairwise
        (fun a b => b.similarity ≤ a.similarity)
    ∧ r.Pairwise (fun a b => b.similarity ≤ a.similarity)
    ∧ (fullResults s qv opts.threshold opts.similarityMethod opts.metadataFilter).Perm
        (scoreDocs opts.similarityMethod qv opts.threshold (candidateDocs s opts.metadataFilter))
    ∧ (∀ c : ℝ,
        (fullResults s qv opts.threshold opts.similarityMethod opts.metadataFilter).filter
            (fun x => decide (x.similarity = c)) =
          (scoreDocs opts.similarityMethod qv opts.threshold (candidateDocs s opts.metadataFilter)).filter
            (fun x => decide (x.similarity = c)))
    ∧ ({} : SearchOptions).limit = 10 := by
  have hr : r = (fullResults s qv opts.threshold opts.similarityMethod opts.metadataFilter).take opts.limit := by
    by_cases hse : s.isEmpty
    · have hnil : s = [] := by simpa [List.isEmpty_iff] using hse
      subst hnil
      simp [NeuraDB.search] at hok
      rw [hok.1, fullResults_nil]
      simp
    · by_cases hqe : qv.isEmpty
      · simp [NeuraDB.search, hse, hqe] at hok
      · simp [NeuraDB.search, hse, hqe, paginate, hps] at hok
        exact hok.1.symm
  refine ⟨hr, sortDesc_pairwise _, ?_, sortDesc_perm _, fun c => sortDesc_filter_eq _ c, rfl⟩
  exact (sortDesc_pairwise _).sublist (hr ▸ List.take_sublist _ _)

/-- C4 witness: a concrete search over two one-dimensional documents with
equal scores, showing the tie kept in encounter order and the limit cut. -/
theorem claim_C4_witness :
    NeuraDB.search provider0 [docA, docB] (.vec [1]) { similarityMethod := .dot } =
      (.ok [⟨docA, 1⟩, ⟨docB, 1⟩], [])
    ∧ [(⟨docA, 1⟩ : SearchResult), ⟨docB, 1⟩] =
        (fullResults [docA, docB] [1] 0 .dot none).take 10
    ∧ (fullResults [docA, docB] [1] 0 .dot none).Pairwise
        (fun a b => b.similarity ≤ a.similarity) := by
  have hok : NeuraDB.search provider0 [docA, docB] (.vec [1]) { similarityMethod := .dot } =
      (.ok [⟨docA, 1⟩, ⟨docB, 1⟩], []) := by
    norm_num [NeuraDB.search, paginate, fullResults, scoreDocs, candidateDocs,
      calculateSimilarity, dotProductSimilarity, sortDesc, insertDesc, docA, docB,
      List.filterMap_cons, List.filter_cons, decide_eq_true_eq]
  have h := claim_C4_sorted_stable_limit provider0 [docA, docB] [1]
    { similarityMethod := .dot } [⟨docA, 1⟩, ⟨docB, 1⟩] [] rfl hok
  exact ⟨hok, h.1, h.2.1⟩

/-! ### Claim C5 — the pagination law -/

theorem join_pages {α : Type _} (k : ℕ) (_hk : 0 < k) :
    ∀ (N : ℕ) (L : List α), L.length ≤ N * k →
      ((List.range N).map (fun i => (L.drop (i * k)).take k)).flatten = L := by
  intro N
  induction N with
  | zero =>
    intro L h
    have hnil : L = [] := List.eq_nil_of_length_eq_zero (Nat.le_zero.mp (by simpa using h))
    simp [hnil]
  | succ N ih =>
    intro L h
    have h' : L.length ≤ N * k + k := by rw [Nat.succ_mul] at h; exact h
    rw [List.range_succ_eq_map, List.map_cons, List.flatten_cons, List.map_map]
    have hfun : ((fun i => (L.drop (i * k)).take k) ∘ Nat.succ) =
        fun i => ((L.drop k).drop (i * k)).take k := by
      funext i
      simp [Function.comp, List.drop_drop, Nat.succ_mul, Nat.add_comm]
    rw [hfun, ih (L.drop k) (by rw [List.length_drop]; omega)]
    simp

theorem searchWithPagination_ok (f : Provider) (s : State) (qv : List ℝ)
    (opts : SearchOptions) (hs : s ≠ []) (hq : qv ≠ []) :
    NeuraDB.searchWithPagination f s (.vec qv) opts =
      (.ok (NeuraDB.pagedResult s qv opts (opts.pageSize.getD 10)), []) := by
  cases s with
  | nil => exact absurd rfl hs
  | cons d t =>
    cases qv with
    | nil => exact absurd rfl hq
    | cons x xs => simp [NeuraDB.searchWithPagination]

theorem search_paged_ok (f : Provider) (s : State) (qv : List ℝ)
    (opts : SearchOptions) (hs : s ≠ []) (hq : qv ≠ []) :
    NeuraDB.search f s (.vec qv) opts =
      (.ok (paginate (fullResults s qv opts.threshold opts.similarityMethod opts.metadataFilter) opts), []) := by
  cases s with
  | nil => exact absurd rfl hs
  | cons d t =>
    cases qv with
    | nil => exact absurd rfl hq
    | cons x xs => simp [NeuraDB.search]

/-- C5: for a fixed vector query over an unchanged non-empty store and a
page size `k > 0`: every page returned by `searchWithPagination` (and by
`search` with `pageSize`) is the slice `[(p-1)·k, p·k)` of the full
sorted thresholded result list; concatenating pages `1..N` reproduces
that list exactly once `N·k` covers it; pages beyond the end are empty
(never an error); `totalPages` is `⌈totalResults / k⌉`; and an empty
table yields zero totals. -/
theorem claim_C5_pagination (f : Provider) (s : State) (qv : List ℝ)
    (opts : SearchOptions) (k : ℕ) (hk : 0 < k) (hs : s ≠ []) (hq : qv ≠ []) :
    (∀ p : ℕ,
      NeuraDB.searchWithPagination f s (.vec qv) { opts with page := p, pageSize := some k } =
        (.ok { data := ((fullResults s qv opts.threshold opts.similarityMethod opts.metadataFilter).drop
                  ((p - 1) * k)).take k,
               page := p, pageSize := k,
               totalResults := (fullResults s qv opts.threshold opts.similarityMethod opts.metadataFilter).length,
               totalPages := NeuraDB.ceilDivNat
                 (fullResults s qv opts.threshold opts.similarityMethod opts.metadataFilter).length k }, []))
    ∧ (∀ p : ℕ,
      NeuraDB.search f s (.vec qv) { opts with page := p, pageSize := some k } =
        (.ok (((fullResults s qv opts.threshold opts.similarityMethod opts.metadataFilter).drop
                  ((p - 1) * k)).take k), []))
    ∧ (∀ N : ℕ,
        (fullResults s qv opts.threshold opts.similarityMethod opts.metadataFilter).length ≤ N * k →
        ((List.range N).map (fun i =>
            ((fullResults s qv opts.threshold opts.similarityMethod opts.metadataFilter).drop (i * k)).take k)).flatten =
          fullResults s qv opts.threshold opts.similarityMethod opts.metadataFilter)
    ∧ (∀ p : ℕ,
        (fullResults s qv opts.threshold opts.similarityMethod opts.metadataFilter).length ≤ (p - 1) * k →
        ((fullResults s qv opts.threshold opts.similarityMethod opts.metadataFilter).drop ((p - 1) * k)).take k = [])
    ∧ (∀ (q2 : Query) (opts2 : SearchOptions),
        NeuraDB.searchWithPagination f [] q2 opts2 =
          (.ok { data := [], page := opts2.page, pageSize := opts2.pageSize.getD 10,
                 totalResults := 0, totalPages := 0 }, [])) := by
  refine ⟨?_, ?_, ?_, ?_, ?_⟩
  · intro p
    rw [searchWithPagination_ok f s qv { opts with page := p, pageSize := some k } hs hq]
    rfl
  · intro p
    rw [search_paged_ok f s qv { opts with page := p, pageSize := some k } hs hq]
    rfl
  · intro N hN
    exact join_pages k hk N _ hN
  · intro p hp
    rw [List.drop_eq_nil_of_le hp]
    simp
  · intro q2 opts2
    simp [NeuraDB.searchWithPagination]

/-- C5 witness: three one-dimensional documents with page size 2 — page 2
is the shorter last page, page 3 is empty, `totalPages = ⌈3/2⌉ = 2`, and
the two pages concatenate back to the full sorted result list. -/
theorem claim_C5_witness :
    NeuraDB.searchWithPagination provider0 [docA, docB, docC] (.vec [1])
        { similarityMethod := .dot, page := 2, pageSize := some 2 } =
      (.ok { data := [⟨docC, 1⟩], page := 2, pageSize := 2,
             totalResults := 3, totalPages := 2 }, [])
    ∧ NeuraDB.searchWithPagination provider0 [docA, docB, docC] (.vec [1])
        { similarityMethod := .dot, page := 3, pageSize := some 2 } =
      (.ok { data := [], page := 3, pageSize := 2,
             totalResults := 3, totalPages := 2 }, [])
    ∧ ((List.range 2).map (fun i =>
          ((fullResults [docA, docB, docC] [1] 0 .dot none).drop (i * 2)).take 2)).flatten =
        fullResults [docA, docB, docC] [1] 0 .dot none := by
  have h := claim_C5_pagination provider0 [docA, docB, docC] [1]
    { similarityMethod := .dot } 2 (by norm_num) (by simp) (by simp)
  have hL : fullResults [docA, docB, docC] [1] 0 .dot none =
      [⟨docA, 1⟩, ⟨docB, 1⟩, ⟨docC, 1⟩] := by
    norm_num [fullResults, scoreDocs, candidateDocs, calculateSimilarity,
      dotProductSimilarity, sortDesc, insertDesc, docA, docB, docC,
      List.filterMap_cons, List.filter_cons, decide_eq_true_eq]
  have hceil : NeuraDB.ceilDivNat 3 2 = 2 := by
    rw [NeuraDB.ceilDivNat]
    rw [Nat.ceil_eq_iff (by norm_num)]
    constructor <;> norm_num
  refine ⟨?_, ?_, ?_⟩
  · have h1 := h.1 2
    rw [hL] at h1
    simpa [hceil] using h1
  · have h1 := h.1 3
    rw [hL] at h1
    simpa [hceil] using h1
  · exact h.2.2.1 2 (by rw [hL]; norm_num)

/-! ### Claim C6 — cosine similarity -/

/-- C6: cosine similarity is the dot product over the product of
magnitudes whenever both magnitudes are nonzero, is exactly 0 whenever
either magnitude is exactly 0, and the round-trip query `[1,0,0]` against
a store holding a document embedded as `[1,0,0]` scores that document
1.0 and ranks it first. -/
theorem claim_C6_cosine (a b : List ℝ) :
    (magnitude a = 0 ∨ magnitude b = 0 → cosineSimilarity a b = 0)
    ∧ (magnitude a ≠ 0 → magnitude b ≠ 0 →
        cosineSimilarity a b = dotProductSimilarity a b / (magnitude a * magnitude b))
    ∧ NeuraDB.search provider0 [docX, docY] (.vec [1, 0, 0]) {} =
        (.ok [⟨docX, 1⟩, ⟨docY, 0⟩], []) := by
  refine ⟨?_, ?_, ?_⟩
  · intro h
    simp only [cosineSimilarity, if_pos h]
  · intro ha hb
    simp only [cosineSimilarity, if_neg (not_or.mpr ⟨ha, hb⟩)]
  · norm_num [NeuraDB.search, paginate, fullResults, scoreDocs, candidateDocs,
      calculateSimilarity, cosineSimilarity, magnitude, dotProductSimilarity,
      sortDesc, insertDesc, docX, docY,
      List.filterMap_cons, List.filter_cons, decide_eq_true_eq, Real.sqrt_one]

/-- C6 witness: the zero-magnitude guard and the formula evaluated at
concrete vectors. -/
theorem claim_C6_witness :
    cosineSimilarity [0] [1] = 0 ∧ cosineSimilarity [1, 0, 0] [1, 0, 0] = 1 := by
  have h0 := (claim_C6_cosine [0] [1]).1
  have h1 := (claim_C6_cosine [1, 0, 0] [1, 0, 0]).2.1
  have hm : magnitude [1, 0, 0] = 1 := by
    norm_num [magnitude, Real.sqrt_one]
  constructor
  · exact h0 (Or.inl (by norm_num [magnitude, Real.sqrt_zero]))
  · rw [h1 (by rw [hm]; norm_num) (by rw [hm]; norm_num), hm]
    norm_num [dotProductSimilarity]

/-! ### Claim C7 — batch chunking, provider calls and delays -/

theorem chunkArray_nil {α : Type _} (k : ℕ) : chunkArray ([] : List α) k = [] := by
  rw [chunkArray]
  split <;> simp

theorem chunkArray_cons_eq {α : Type _} (l : List α) (k : ℕ) (hk : k ≠ 0) (hl : l ≠ []) :
    chunkArray l k = l.take k :: chunkArray (l.drop k) k := by
  rw [chunkArray, dif_neg hk, dif_neg (by simpa [List.isEmpty_iff] using hl)]

theorem chunkArray_small {α : Type _} (l : List α) (k : ℕ) (hk : k ≠ 0)
    (hl : l ≠ []) (hlen : l.length ≤ k) : chunkArray l k = [l] := by
  rw [chunkArray_cons_eq l k hk hl, List.take_of_length_le hlen,
    List.drop_eq_nil_of_le hlen, chunkArray_nil]

theorem chunkArray_flatten_aux {α : Type _} (k : ℕ) (hk : k ≠ 0) :
    ∀ (n : ℕ) (l : List α), l.length ≤ n → (chunkArray l k).flatten = l := by
  intro n
  induction n with
  | zero =>
    intro l h
    have hnil : l = [] := List.eq_nil_of_length_eq_zero (by omega)
    simp [hnil, chunkArray_nil]
  | succ n ih =>
    intro l h
    rcases eq_or_ne l [] with rfl | hl
    · simp [chunkArray_nil]
    · have hpos : 0 < l.length := List.length_pos.mpr hl
      rw [chunkArray_cons_eq l k hk hl, List.flatten_cons,
        ih (l.drop k) (by rw [List.length_drop]; omega)]
      exact List.take_append_drop k l

theorem chunkArray_length_aux {α : Type _} (k : ℕ) (hk : k ≠ 0) :
    ∀ (n : ℕ) (l : List α), l.length ≤ n →
      (chunkArray l k).length = (l.length + k - 1) / k := by
  intro n
  induction n with
  | zero =>
    intro l h
    have hnil : l = [] := List.eq_nil_of_length_eq_zero (by omega)
    simp [hnil, chunkArray_nil, Nat.div_eq_of_lt (show k - 1 < k by omega)]
  | succ n ih =>
    intro l h
    rcases eq_or_ne l [] with rfl | hl
    · simp [chunkArray_nil, Nat.div_eq_of_lt (show k - 1 < k by omega)]
    · have hpos : 0 < l.length := List.length_pos.mpr hl
      rw [chunkArray_cons_eq l k hk hl, List.length_cons,
        ih (l.drop k) (by rw [List.length_drop]; omega), List.length_drop]
      rcases le_or_lt l.length k with hle | hlt
      · have h1 : l.length - k + k - 1 = k - 1 := by omega
        have h2 : (k - 1) / k = 0 := Nat.div_eq_of_lt (by omega)
        have h3 : (l.length + k - 1) / k = 1 := by
          apply Nat.div_eq_of_lt_le <;> omega
        rw [h1, h2, h3]
      · have h1 : l.length - k + k - 1 = l.length - 1 := by omega
        have h2 : l.length + k - 1 = (l.length - 1) + k := by omega
        rw [h1, h2, Nat.add_div_right _ (Nat.pos_of_ne_zero hk)]

theorem chunkArray_dropLast_aux {α : Type _} (k : ℕ) (hk : k ≠ 0) :
    ∀ (n : ℕ) (l : List α), l.length ≤ n →
      ∀ c ∈ (chunkArray l k).dropLast, c.length = k := by
  intro n
  induction n with
  | zero =>
    intro l h
    have hnil : l = [] := List.eq_nil_of_length_eq_zero (by omega)
    simp [hnil, chunkArray_nil]
  | succ n ih =>
    intro l h
    rcases eq_or_ne l [] with rfl | hl
    · simp [chunkArray_nil]
    · have hpos : 0 < l.length := List.length_pos.mpr hl
      rw [chunkArray_cons_eq l k hk hl]
      rcases eq_or_ne (chunkArray (l.drop k) k) [] with hrest | hrest
      · simp [hrest]
      · rw [List.dropLast_cons_of_ne_nil hrest]
        intro c hc
        rcases List.mem_cons.mp hc with rfl | hc
        · have hge : k ≤ l.length := by
            by_contra hcon
            push_neg at hcon
            rw [List.drop_eq_nil_of_le (le_of_lt hcon), chunkArray_nil] at hrest
            exact hrest rfl
          rw [List.length_take]
          omega
        · exact ih (l.drop k) (by rw [List.length_drop]; omega) c hc

theorem chunkArray_mem_aux {α : Type _} (k : ℕ) (hk : k ≠ 0) :
    ∀ (n : ℕ) (l : List α), l.length ≤ n →
      ∀ c ∈ chunkArray l k, c ≠ [] ∧ c.length ≤ k := by
  intro n
  induction n with
  | zero =>
    intro l h
    have hnil : l = [] := List.eq_nil_of_length_eq_zero (by omega)
    simp [hnil, chunkArray_nil]
  | succ n ih =>
    intro l h
    rcases eq_or_ne l [] with rfl | hl
    · simp [chunkArray_nil]
    · have hpos : 0 < l.length := List.length_pos.mpr hl
      rw [chunkArray_cons_eq l k hk hl]
      intro c hc
      rcases List.mem_cons.mp hc with rfl | hc
      · constructor
        · have : 0 < (l.take k).length := by
            rw [List.length_take]
            omega
          exact List.length_pos.mp this
        · rw [List.length_take]
          omega
      · exact ih (l.drop k) (by rw [List.length_drop]; omega) c hc

theorem runBatches_fst (f : Provider) (d : ℕ) :
    ∀ chunks : List (List String),
      (NeuraDB.runBatches f d chunks).1 = (chunks.map f).flatten := by
  intro chunks
  induction chunks with
  | nil => rfl
  | cons c rest ih =>
    cases rest with
    | nil => simp [NeuraDB.runBatches]
    | cons c2 r2 => simp [NeuraDB.runBatches, ih]

theorem runBatches_snd (f : Provider) (d : ℕ) :
    ∀ chunks : List (List String),
      (NeuraDB.runBatches f d chunks).2 =
        if 0 < d then List.intersperse (Event.delay d) (chunks.map Event.call)
        else chunks.map Event.call := by
  intro chunks
  induction chunks with
  | nil => simp [NeuraDB.runBatches]
  | cons c rest ih =>
    cases rest with
    | nil => simp [NeuraDB.runBatches]
    | cons c2 r2 =>
      by_cases hd : 0 < d <;>
        simp [NeuraDB.runBatches, ih, hd, List.intersperse_cons_cons]

theorem callsOf_map_call (chunks : List (List String)) :
    callsOf (chunks.map Event.call) = chunks := by
  induction chunks with
  | nil => rfl
  | cons c rest ih => simp [callsOf, List.filterMap_cons] at ih ⊢; exact ih

theorem callsOf_intersperse (d : ℕ) (chunks : List (List String)) :
    callsOf (List.intersperse (Event.delay d) (chunks.map Event.call)) = chunks := by
  induction chunks with
  | nil => rfl
  | cons c rest ih =>
    cases rest with
    | nil => rfl
    | cons c2 r2 =>
      simp only [List.map_cons, List.intersperse_cons_cons] at ih ⊢
      simp only [callsOf, List.filterMap_cons] at ih ⊢
      simpa using ih

theorem ceilDivNat_eq (n k : ℕ) (hk : 0 < k) :
    NeuraDB.ceilDivNat n k = (n + k - 1) / k := by
  rcases Nat.eq_zero_or_pos n with rfl | hn
  · simp [NeuraDB.ceilDivNat, Nat.div_eq_of_lt (show k - 1 < k by omega)]
  · obtain ⟨m, hm⟩ : ∃ m, (n + k - 1) / k = m + 1 := by
      have h1 : 1 ≤ (n + k - 1) / k := (Nat.one_le_div_iff hk).mpr (by omega)
      exact ⟨(n + k - 1) / k - 1, by omega⟩
    rw [hm, NeuraDB.ceilDivNat, Nat.ceil_eq_iff (Nat.succ_ne_zero m)]
    have hdm := Nat.div_add_mod (n + k - 1) k
    rw [hm] at hdm
    have hr : (n + k - 1) % k < k := Nat.mod_lt _ hk
    have hmul : k * (m + 1) = k * m + k := by ring
    rw [hmul] at hdm
    have hkq : (0 : ℚ) < (k : ℚ) := by exact_mod_cast hk
    have hub : n ≤ (m + 1) * k := by
      have : (m + 1) * k = k * m + k := by ring
      omega
    have hlb : m * k < n := by
      have : m * k = k * m := by ring
      omega
    constructor
    · rw [Nat.succ_sub_one, lt_div_iff₀ hkq]
      exact_mod_cast hlb
    · rw [div_le_iff₀ hkq]
      exact_mod_cast hub

theorem generateEmbeddings_eq (f : Provider) (texts : List String) (k d : ℕ)
    (hk : k ≠ 0) :
    NeuraDB.generateEmbeddings f texts k d =
      (((chunkArray texts k).map f).flatten,
       if 0 < d then List.intersperse (Event.delay d) ((chunkArray texts k).map Event.call)
       else (chunkArray texts k).map Event.call) := by
  rcases eq_or_ne texts [] with rfl | hne
  · simp [NeuraDB.generateEmbeddings, chunkArray_nil]
  · by_cases hsmall : texts.length ≤ k
    · have hch : chunkArray texts k = [texts] := chunkArray_small texts k hk hne hsmall
      have hemp : texts.isEmpty = false := by simpa [List.isEmpty_iff] using hne
      simp [NeuraDB.generateEmbeddings, hemp, hsmall, hch]
    · have hemp : texts.isEmpty = false := by simpa [List.isEmpty_iff] using hne
      rw [NeuraDB.generateEmbeddings, hemp]
      simp only [Bool.false_eq_true, if_false, hsmall, if_neg hsmall]
      rw [show NeuraDB.runBatches f d (chunkArray texts k) =
        ((NeuraDB.runBatches f d (chunkArray texts k)).1,
         (NeuraDB.runBatches f d (chunkArray texts k)).2) from rfl]
      rw [runBatches_fst, runBatches_snd]

/-- C7: with a positive batch size, `chunkArray` splits the texts into
`⌈n / batchSize⌉` order-preserving chunks whose concatenation is the
original list, every chunk but the last of length `batchSize` (all chunks
non-empty and at most `batchSize`); `generateEmbeddings` concatenates one
provider call result per chunk in order, its trace contains exactly the
chunks as provider calls in order, and a positive `batchDelay` is
interspersed between consecutive calls — never after the last — while a
zero delay inserts nothing. -/
theorem claim_C7_batch_embedding (f : Provider) (texts : List String) (k d : ℕ)
    (hk : 0 < k) :
    (chunkArray texts k).flatten = texts
    ∧ (chunkArray texts k).length = NeuraDB.ceilDivNat texts.length k
    ∧ (∀ c ∈ (chunkArray texts k).dropLast, c.length = k)
    ∧ (∀ c ∈ chunkArray texts k, c ≠ [] ∧ c.length ≤ k)
    ∧ (NeuraDB.generateEmbeddings f texts k d).1 = ((chunkArray texts k).map f).flatten
    ∧ callsOf (NeuraDB.generateEmbeddings f texts k d).2 = chunkArray texts k
    ∧ (0 < d → (NeuraDB.generateEmbeddings f texts k d).2 =
        List.intersperse (Event.delay d) ((chunkArray texts k).map Event.call))
    ∧ (d = 0 → (NeuraDB.generateEmbeddings f texts k d).2 =
        (chunkArray texts k).map Event.call) := by
  have hk' : k ≠ 0 := Nat.pos_iff_ne_zero.mp hk
  have hgen := generateEmbeddings_eq f texts k d hk'
  refine ⟨chunkArray_flatten_aux k hk' texts.length texts le_rfl, ?_, ?_, ?_, ?_, ?_, ?_, ?_⟩
  · rw [chunkArray_length_aux k hk' texts.length texts le_rfl, ceilDivNat_eq _ _ hk]
  · exact chunkArray_dropLast_aux k hk' texts.length texts le_rfl
  · exact chunkArray_mem_aux k hk' texts.length texts le_rfl
  · rw [hgen]
  · rw [hgen]
    by_cases hd : 0 < d
    · simp only [if_pos hd]
      exact callsOf_intersperse d (chunkArray texts k)
    · simp only [if_neg hd]
      exact callsOf_map_call (chunkArray texts k)
  · intro hd
    rw [hgen]
    simp only [if_pos hd]
  · intro hd
    subst hd
    rw [hgen]
    simp

/-- C7 witness: 15 texts with batch size 5 produce exactly 3 chunks,
hence exactly 3 provider calls in order, with a delay after the first and
second call but not after the third. -/
theorem claim_C7_witness :
    chunkArray texts15 5 =
      [["t01", "t02", "t03", "t04", "t05"],
       ["t06", "t07", "t08", "t09", "t10"],
       ["t11", "t12", "t13", "t14", "t15"]]
    ∧ callsOf (NeuraDB.generateEmbeddings provider1 texts15 5 1000).2 =
      [["t01", "t02", "t03", "t04", "t05"],
       ["t06", "t07", "t08", "t09", "t10"],
       ["t11", "t12", "t13", "t14", "t15"]]
    ∧ (NeuraDB.generateEmbeddings provider1 texts15 5 1000).2 =
      [Event.call ["t01", "t02", "t03", "t04", "t05"], Event.delay 1000,
       Event.call ["t06", "t07", "t08", "t09", "t10"], Event.delay 1000,
       Event.call ["t11", "t12", "t13", "t14", "t15"]]
    ∧ (callsOf (NeuraDB.generateEmbeddings provider1 texts15 5 1000).2).length = 3 := by
  have h := claim_C7_batch_embedding provider1 texts15 5 1000 (by norm_num)
  have hch : chunkArray texts15 5 =
      [["t01", "t02", "t03", "t04", "t05"],
       ["t06", "t07", "t08", "t09", "t10"],
       ["t11", "t12", "t13", "t14", "t15"]] := by
    simp [chunkArray, texts15]
  have hcalls := h.2.2.2.2.2.1
  rw [hch] at hcalls
  have htr := h.2.2.2.2.2.2.1 (by norm_num)
  rw [hch] at htr
  refine ⟨hch, hcalls, ?_, by rw [hcalls]; rfl⟩
  rw [htr]
  simp [List.intersperse_cons_cons]

/-! ### Claim C1 — the dimension invariant -/

theorem mem_mapSet {s : State} {d x : Doc} (h : x ∈ mapSet s d) : x ∈ s ∨ x = d := by
  unfold mapSet at h
  split at h
  · rcases List.mem_map.mp h with ⟨y, hy, hxy⟩
    by_cases hid : y.id = d.id
    · right
      rw [← hxy]
      simp [hid]
    · left
      rw [← hxy]
      simpa [hid] using hy
  · rcases List.mem_append.mp h with h | h
    · left; exact h
    · right; simpa using h

theorem mapSet_ne_nil (s : State) (d : Doc) : mapSet s d ≠ [] := by
  unfold mapSet
  split
  · rename_i hc
    intro hcon
    rw [List.map_eq_nil_iff] at hcon
    subst hcon
    simp at hc
  · simp

theorem mem_writeAll {now : ℕ} {fd : List (DocIn × List ℝ)} :
    ∀ {s : State} {x : Doc}, x ∈ NeuraDB.writeAll s now fd →
      x ∈ s ∨ ∃ p ∈ fd, x = NeuraDB.stampDoc now p.1 p.2 := by
  induction fd with
  | nil =>
    intro s x h
    exact Or.inl h
  | cons p fd ih =>
    intro s x h
    rcases ih h with h | ⟨q, hq, rfl⟩
    · rcases mem_mapSet h with h | rfl
      · exact Or.inl h
      · exact Or.inr ⟨p, List.mem_cons_self p fd, rfl⟩
    · exact Or.inr ⟨q, List.mem_cons_of_mem p hq, rfl⟩

theorem writeAll_ne_nil (now : ℕ) (fd : List (DocIn × List ℝ)) :
    ∀ s : State, s ≠ [] → NeuraDB.writeAll s now fd ≠ [] := by
  induction fd with
  | nil => intro s hs; exact hs
  | cons p fd ih =>
    intro s hs
    exact ih (mapSet s (NeuraDB.stampDoc now p.1 p.2)) (mapSet_ne_nil s _)

theorem finalCheck_none_cons {dim : Option ℕ} {d0 : DocIn} {e0 : List ℝ}
    {rest : List (DocIn × List ℝ)}
    (h : NeuraDB.finalCheck dim ((d0, e0) :: rest) = none) :
    (∀ p ∈ (d0, e0) :: rest, p.2.length = e0.length)
    ∧ (∀ dv, dim = some dv → e0.length = dv) := by
  simp only [NeuraDB.finalCheck] at h
  cases hfind : List.find? (fun p => decide ¬ p.2.length = e0.length) rest with
  | some p =>
    rw [hfind] at h
    simp at h
  | none =>
    rw [hfind] at h
    constructor
    · intro p hp
      rcases List.mem_cons.mp hp with rfl | hp
      · rfl
      · have := List.find?_eq_none.mp hfind p hp
        simpa using this
    · intro dv hdv
      subst hdv
      by_contra hcon
      simp [hcon] at h

theorem finalCheck_none {dim : Option ℕ} {fd : List (DocIn × List ℝ)}
    (h : NeuraDB.finalCheck dim fd = none) (hne : fd ≠ []) :
    ∃ n, (∀ p ∈ fd, p.2.length = n) ∧ (∀ dv, dim = some dv → n = dv) := by
  match fd with
  | [] => exact absurd rfl hne
  | (d0, e0) :: rest =>
    obtain ⟨h1, h2⟩ := finalCheck_none_cons h
    exact ⟨e0.length, h1, h2⟩

theorem dimInv_of_all {s : State} {n : ℕ}
    (h : ∀ x ∈ s, x.embedding.length = n) : DimInv s := by
  intro d₁ h₁ d₂ h₂
  rw [h d₁ h₁, h d₂ h₂]

theorem getEmbeddingDimensions_eq_some {s : State} (hne : s ≠ []) {n : ℕ}
    (h : ∀ x ∈ s, x.embedding.length = n) : getEmbeddingDimensions s = some n := by
  cases s with
  | nil => exact absurd rfl hne
  | cons d t =>
    have hd : getEmbeddingDimensions (d :: t) = some d.embedding.length := rfl
    rw [hd, h d (List.mem_cons_self d t)]

theorem validateDocument_none {id : String} {emb : List ℝ}
    (h : validateDocument id emb = none) : id ≠ "" ∧ emb ≠ [] := by
  unfold validateDocument at h
  split_ifs at h with h1 h2
  exact ⟨h1, by simpa [List.isEmpty_iff] using h2⟩

theorem validateEmbeddingDimensions_true {s : State} {emb : List ℝ}
    (h : validateEmbeddingDimensions s emb = true) :
    ∀ dv, getEmbeddingDimensions s = some dv → emb.length = dv := by
  intro dv hdv
  unfold validateEmbeddingDimensions at h
  rw [hdv] at h
  simpa using h

theorem addDocument_ok {f : Provider} {now : ℕ} {s : State} {din : DocIn}
    {ce : Bool} {s' : State} {tr : Trace}
    (h : NeuraDB.addDocument f now s din ce = (.ok s', tr)) :
    ∃ emb, s' = mapSet s (NeuraDB.stampDoc now din emb) ∧ emb ≠ [] ∧
      validateEmbeddingDimensions s emb = true := by
  unfold NeuraDB.addDocument at h
  split at h
  · simp at h
  · rename_i p heq
    split at h
    · simp at h
    · rename_i hval
      split at h
      · rename_i hdim
        simp only [Prod.mk.injEq, Except.ok.injEq] at h
        refine ⟨p.1, h.1.symm, (validateDocument_none hval).2, hdim⟩
      · simp at h

theorem commit_ok {s : State} {now : ℕ} {fd : List (DocIn × List ℝ)} {s' : State}
    (h : NeuraDB.commit s now fd = .ok s') :
    NeuraDB.finalCheck (getEmbeddingDimensions s) fd = none
    ∧ s' = NeuraDB.writeAll s now fd := by
  unfold NeuraDB.commit at h
  split at h
  · simp at h
  · rename_i hfc
    exact ⟨hfc, by simpa using h.symm⟩

theorem mergePhase_ok {s : State} {now : ℕ} {needing : List DocIn}
    {having : List (DocIn × List ℝ)} {g : List (List ℝ) × Trace}
    {s' : State} {tr : Trace}
    (h : NeuraDB.mergePhase s now needing having g = (.ok s', tr)) :
    ∃ fd, s' = NeuraDB.writeAll s now fd ∧
      NeuraDB.finalCheck (getEmbeddingDimensions s) fd = none := by
  unfold NeuraDB.mergePhase at h
  split at h
  · simp at h
  · split at h
    · simp at h
    · simp only [Prod.mk.injEq] at h
      obtain ⟨hfc, hw⟩ := commit_ok h.1
      exact ⟨_, hw, hfc⟩

theorem addDocuments_ok {f : Provider} {now : ℕ} {s : State} {docs : List DocIn}
    {opts : NeuraDB.AddDocumentsOptions} {s' : State} {tr : Trace}
    (h : NeuraDB.addDocuments f now s docs opts = (.ok s', tr)) :
    s' = s ∨ ∃ fd, s' = NeuraDB.writeAll s now fd ∧
      NeuraDB.finalCheck (getEmbeddingDimensions s) fd = none := by
  unfold NeuraDB.addDocuments at h
  split at h
  · simp only [Prod.mk.injEq, Except.ok.injEq] at h
    exact Or.inl h.1.symm
  · split at h
    · simp at h
    · split at h
      · -- createEmbedding branch
        split at h
        · simp at h
        · have h2 : NeuraDB.mergePhase s now
              (docs.filter (fun d => d.embedding.isNone))
              (docs.filterMap (fun d => d.embedding.map (fun e => (d, e))))
              (NeuraDB.generateEmbeddings f
                ((docs.filter (fun d => d.embedding.isNone)).map (fun d => d.content))
                opts.batchSize opts.batchDelay) = (.ok s', tr) := h
          rcases mergePhase_ok h2 with ⟨fd, hw, hfc⟩
          exact Or.inr ⟨fd, hw, hfc⟩
      · simp only [Prod.mk.injEq] at h
        obtain ⟨hfc, hw⟩ := commit_ok h.1
        exact Or.inr ⟨_, hw, hfc⟩

theorem updateResolved_ok {f : Provider} {now : ℕ} {s : State} {din : DocIn}
    {ce : Bool} {ex : Doc} {s' : State} {b : Bool} {tr : Trace}
    (h : NeuraDB.updateResolved f now s din ce ex = (.ok (s', b), tr)) :
    s' = s ∨ ∃ (ex : Doc) (emb : List ℝ), emb ≠ [] ∧
      validateEmbeddingDimensions s emb = true ∧
      s' = mapSet s { id := din.id, content := din.content, embedding := emb,
                      metadata := din.metadata, createdAt := ex.createdAt,
                      updatedAt := now } := by
  unfold NeuraDB.updateResolved at h
  split at h
  · simp at h
  · rename_i p heq
    split at h
    · simp at h
    · rename_i hval
      split at h
      · rename_i hdim
        simp only [Prod.mk.injEq, Except.ok.injEq] at h
        exact Or.inr ⟨ex, p.1, (validateDocument_none hval).2, hdim, h.1.1.symm⟩
      · simp at h

theorem updateDocument_ok {f : Provider} {now : ℕ} {s : State} {din : DocIn}
    {ce : Bool} {s' : State} {b : Bool} {tr : Trace}
    (h : NeuraDB.updateDocument f now s din ce = (.ok (s', b), tr)) :
    s' = s ∨ ∃ (ex : Doc) (emb : List ℝ), emb ≠ [] ∧
      validateEmbeddingDimensions s emb = true ∧
      s' = mapSet s { id := din.id, content := din.content, embedding := emb,
                      metadata := din.metadata, createdAt := ex.createdAt,
                      updatedAt := now } := by
  unfold NeuraDB.updateDocument at h
  cases hfind : List.find? (fun d => decide (d.id = din.id)) s with
  | none =>
    rw [hfind] at h
    have h2 : ((Except.ok (s, false) : Except Err (State × Bool)), ([] : Trace)) =
        (.ok (s', b), tr) := h
    simp only [Prod.mk.injEq, Except.ok.injEq] at h2
    exact Or.inl h2.1.1.symm
  | some ex =>
    rw [hfind] at h
    have h2 : NeuraDB.updateResolved f now s din ce ex = (.ok (s', b), tr) := h
    exact updateResolved_ok h2

theorem addDocument_preserves {f : Provider} {now : ℕ} {s : State} {din : DocIn}
    {ce : Bool} {s' : State} {tr : Trace} (hInv : DimInv s)
    (h : NeuraDB.addDocument f now s din ce = (.ok s', tr)) :
    DimInv s' ∧ (s ≠ [] → getEmbeddingDimensions s' = getEmbeddingDimensions s) := by
  obtain ⟨emb, rfl, hne, hdim⟩ := addDocument_ok h
  cases s with
  | nil =>
    refine ⟨?_, fun hcon => absurd rfl hcon⟩
    apply dimInv_of_all (n := emb.length)
    intro x hx
    rcases mem_mapSet hx with hx | rfl
    · simp at hx
    · rfl
  | cons d0 t =>
    have hdv : emb.length = d0.embedding.length :=
      validateEmbeddingDimensions_true hdim d0.embedding.length rfl
    have hall : ∀ x ∈ mapSet (d0 :: t) (NeuraDB.stampDoc now din emb),
        x.embedding.length = d0.embedding.length := by
      intro x hx
      rcases mem_mapSet hx with hx | rfl
      · exact hInv x hx d0 (List.mem_cons_self d0 t)
      · exact hdv
    refine ⟨dimInv_of_all hall, fun _ => ?_⟩
    rw [getEmbeddingDimensions_eq_some (mapSet_ne_nil _ _) hall]
    rfl

theorem writeAll_preserves {now : ℕ} {s : State} {fd : List (DocIn × List ℝ)}
    (hInv : DimInv s)
    (hfc : NeuraDB.finalCheck (getEmbeddingDimensions s) fd = none) :
    DimInv (NeuraDB.writeAll s now fd)
    ∧ (s ≠ [] → getEmbeddingDimensions (NeuraDB.writeAll s now fd) = getEmbeddingDimensions s) := by
  rcases eq_or_ne fd [] with rfl | hfd
  · exact ⟨hInv, fun _ => rfl⟩
  · obtain ⟨n, hall_fd, hdim_n⟩ := finalCheck_none hfc hfd
    cases s with
    | nil =>
      refine ⟨?_, fun hcon => absurd rfl hcon⟩
      apply dimInv_of_all (n := n)
      intro x hx
      rcases mem_writeAll hx with hx | ⟨p, hp, rfl⟩
      · simp at hx
      · exact hall_fd p hp
    | cons d0 t =>
      have hd0 : n = d0.embedding.length := hdim_n d0.embedding.length rfl
      have hall : ∀ x ∈ NeuraDB.writeAll (d0 :: t) now fd,
          x.embedding.length = d0.embedding.length := by
        intro x hx
        rcases mem_writeAll hx with hx | ⟨p, hp, rfl⟩
        · exact hInv x hx d0 (List.mem_cons_self d0 t)
        · rw [← hd0]
          exact hall_fd p hp
      refine ⟨dimInv_of_all hall, fun _ => ?_⟩
      rw [getEmbeddingDimensions_eq_some (writeAll_ne_nil now fd _ (by simp)) hall]
      rfl

theorem addDocuments_preserves {f : Provider} {now : ℕ} {s : State}
    {docs : List DocIn} {opts : NeuraDB.AddDocumentsOptions} {s' : State}
    {tr : Trace} (hInv : DimInv s)
    (h : NeuraDB.addDocuments f now s docs opts = (.ok s', tr)) :
    DimInv s' ∧ (s ≠ [] → getEmbeddingDimensions s' = getEmbeddingDimensions s) := by
  rcases addDocuments_ok h with rfl | ⟨fd, rfl, hfc⟩
  · exact ⟨hInv, fun _ => rfl⟩
  · exact writeAll_preserves hInv hfc

theorem updateDocument_preserves {f : Provider} {now : ℕ} {s : State} {din : DocIn}
    {ce : Bool} {s' : State} {b : Bool} {tr : Trace} (hInv : DimInv s)
    (h : NeuraDB.updateDocument f now s din ce = (.ok (s', b), tr)) :
    DimInv s' ∧ (s ≠ [] → getEmbeddingDimensions s' = getEmbeddingDimensions s) := by
  rcases updateDocument_ok h with rfl | ⟨ex, emb, hne, hdim, rfl⟩
  · exact ⟨hInv, fun _ => rfl⟩
  · cases s with
    | nil =>
      refine ⟨?_, fun hcon => absurd rfl hcon⟩
      apply dimInv_of_all (n := emb.length)
      intro x hx
      rcases mem_mapSet hx with hx | rfl
      · simp at hx
      · rfl
    | cons d0 t =>
      have hdv : emb.length = d0.embedding.length :=
        validateEmbeddingDimensions_true hdim d0.embedding.length rfl
      have hall : ∀ x ∈ mapSet (d0 :: t)
          { id := din.id, content := din.content, embedding := emb,
            metadata := din.metadata, createdAt := ex.createdAt, updatedAt := now },
          x.embedding.length = d0.embedding.length := by
        intro x hx
        rcases mem_mapSet hx with hx | rfl
        · exact hInv x hx d0 (List.mem_cons_self d0 t)
        · exact hdv
      refine ⟨dimInv_of_all hall, fun _ => ?_⟩
      rw [getEmbeddingDimensions_eq_some (mapSet_ne_nil _ _) hall]
      rfl

theorem removeDocument_preserves {s : State} (hInv : DimInv s) (id : String) :
    DimInv (removeDocument s id).1
    ∧ ((removeDocument s id).1 ≠ [] →
        getEmbeddingDimensions (removeDocument s id).1 = getEmbeddingDimensions s) := by
  constructor
  · intro d₁ h₁ d₂ h₂
    exact hInv d₁ (List.mem_of_mem_filter h₁) d₂ (List.mem_of_mem_filter h₂)
  · intro hne
    cases s with
    | nil => simp [removeDocument] at hne
    | cons d0 t =>
      have hall : ∀ x ∈ (removeDocument (d0 :: t) id).1,
          x.embedding.length = d0.embedding.length := by
        intro x hx
        have hx2 : x ∈ List.filter (fun d => decide (¬ d.id = id)) (d0 :: t) := hx
        exact hInv x (List.mem_of_mem_filter hx2) d0 (List.mem_cons_self d0 t)
      rw [getEmbeddingDimensions_eq_some hne hall]
      rfl

/-- C1 (amended): every mutating operation — `addDocument`,
`addDocuments`, `updateDocument`, `removeDocument`, `clear` — preserves
the invariant that any two stored documents have embeddings of equal
length, and while the table stays non-empty none of them changes the
table-wide dimension; the dimension resets to unset whenever the table
becomes empty — by `clear` or equally by removing the last document — and
the next successful insert then fixes a fresh dimension. -/
theorem claim_C1_dimension_invariant (f : Provider) (now : ℕ) (s : State)
    (hInv : DimInv s) :
    (∀ din ce s' tr, NeuraDB.addDocument f now s din ce = (.ok s', tr) →
        DimInv s' ∧ (s ≠ [] → getEmbeddingDimensions s' = getEmbeddingDimensions s))
    ∧ (∀ docs opts s' tr, NeuraDB.addDocuments f now s docs opts = (.ok s', tr) →
        DimInv s' ∧ (s ≠ [] → getEmbeddingDimensions s' = getEmbeddingDimensions s))
    ∧ (∀ din ce s' b tr, NeuraDB.updateDocument f now s din ce = (.ok (s', b), tr) →
        DimInv s' ∧ (s ≠ [] → getEmbeddingDimensions s' = getEmbeddingDimensions s))
    ∧ (∀ id, DimInv (removeDocument s id).1 ∧
        ((removeDocument s id).1 ≠ [] →
          getEmbeddingDimensions (removeDocument s id).1 = getEmbeddingDimensions s))
    ∧ DimInv (clear s)
    ∧ getEmbeddingDimensions (clear s) = none
    ∧ getEmbeddingDimensions ([] : State) = none := by
  refine ⟨?_, ?_, ?_, ?_, ?_, rfl, rfl⟩
  · intro din ce s' tr h
    exact addDocument_preserves hInv h
  · intro docs opts s' tr h
    exact addDocuments_preserves hInv h
  · intro din ce s' b tr h
    exact updateDocument_preserves hInv h
  · intro id
    exact removeDocument_preserves hInv id
  · intro d₁ h₁
    simp [clear] at h₁

/-- C1 witness: inserting a matching one-dimensional document into the
one-document store keeps the invariant and leaves the dimension at 1. -/
theorem claim_C1_witness :
    DimInv [docA, { id := "b", content := "c", embedding := [1],
                    createdAt := 5, updatedAt := 5 }]
    ∧ getEmbeddingDimensions
        [docA, { id := "b", content := "c", embedding := [1],
                 createdAt := 5, updatedAt := 5 }] =
      getEmbeddingDimensions [docA] := by
  have hInv : DimInv [docA] := by
    intro d₁ h₁ d₂ h₂
    rcases List.mem_singleton.mp h₁ with rfl
    rcases List.mem_singleton.mp h₂ with rfl
    rfl
  have h := (claim_C1_dimension_invariant provider0 5 [docA] hInv).1
    { id := "b", content := "c", embedding := some [1] } false
    [docA, { id := "b", content := "c", embedding := [1],
             createdAt := 5, updatedAt := 5 }] []
    (by rfl)
  exact ⟨h.1, h.2 (by simp)⟩

/-- C1 counterexample: the table-wide dimension is not fixed for the life
of the store short of `clear()` — removing the last document also resets
it, after which a document of a different dimension is accepted: the
dimension moves from 3 to 2 with no `clear` involved. -/
theorem claim_C1_counterexample :
    (NeuraDB.addDocument provider0 0 [] dinDim3).1 =
      .ok [{ id := "a", content := "c", embedding := [0, 0, 0] }]
    ∧ removeDocument [{ id := "a", content := "c", embedding := [0, 0, 0] }] "a" =
      ([], true)
    ∧ (NeuraDB.addDocument provider0 1 [] dinDim2).1 =
      .ok [{ id := "b", content := "c", embedding := [0, 0],
             createdAt := 1, updatedAt := 1 }]
    ∧ getEmbeddingDimensions [{ id := "a", content := "c", embedding := [0, 0, 0] }] =
      some 3
    ∧ getEmbeddingDimensions [{ id := "b", content := "c", embedding := [0, 0],
                                createdAt := 1, updatedAt := 1 }] = some 2 := by
  refine ⟨rfl, ?_, rfl, rfl, rfl⟩
  simp [removeDocument]

/-! ### Claim C8 — duplicate ids in `addDocuments` pre-validation -/

theorem preValidateAux_none {ids sids : List String} {ce : Bool} {dim : Option ℕ} :
    ∀ (l : List DocIn) (i : ℕ),
      NeuraDB.preValidateAux ids sids ce dim i l = none →
      ∀ j : Fin l.length,
        NeuraDB.docCheck ids sids ce dim (i + j.val) (l.get j) = none := by
  intro l
  induction l with
  | nil =>
    intro i h j
    exact absurd j.isLt (by simp)
  | cons d rest ih =>
    intro i h j
    unfold NeuraDB.preValidateAux at h
    cases hdc : NeuraDB.docCheck ids sids ce dim i d with
    | some e =>
      rw [hdc] at h
      simp at h
    | none =>
      rw [hdc] at h
      have h2 : NeuraDB.preValidateAux ids sids ce dim (i + 1) rest = none := h
      match j with
      | ⟨0, _⟩ => simpa using hdc
      | ⟨j' + 1, hj⟩ =>
        have hj2 : j' < rest.length := by
          simp only [List.length_cons] at hj
          omega
        have h3 := ih (i + 1) h2 ⟨j', hj2⟩
        simpa [Nat.add_comm, Nat.add_assoc, Nat.add_left_comm] using h3

theorem preValidateAux_some {ids sids : List String} {ce : Bool} {dim : Option ℕ} :
    ∀ (l : List DocIn) (i : ℕ) (e : Err),
      NeuraDB.preValidateAux ids sids ce dim i l = some e →
      ∃ (k : ℕ) (hk : k < l.length),
        NeuraDB.docCheck ids sids ce dim (i + k) (l.get ⟨k, hk⟩) = some e := by
  intro l
  induction l with
  | nil =>
    intro i e h
    simp [NeuraDB.preValidateAux] at h
  | cons d rest ih =>
    intro i e h
    unfold NeuraDB.preValidateAux at h
    cases hdc : NeuraDB.docCheck ids sids ce dim i d with
    | some e2 =>
      rw [hdc] at h
      have h2 : some e2 = some e := h
      cases Option.some.inj h2
      exact ⟨0, by simp, by simpa using hdc⟩
    | none =>
      rw [hdc] at h
      have h2 : NeuraDB.preValidateAux ids sids ce dim (i + 1) rest = some e := h
      obtain ⟨k, hk, hdc2⟩ := ih (i + 1) e h2
      refine ⟨k + 1, by simpa using Nat.succ_lt_succ hk, ?_⟩
      simpa [Nat.add_comm, Nat.add_assoc, Nat.add_left_comm] using hdc2

theorem any_map_id (t : State) (idv : String) :
    (t.map (fun x => x.id)).any (fun x => x = idv) = t.any (fun x => x.id = idv) := by
  induction t with
  | nil => rfl
  | cons d2 t2 ih => simp [ih]

theorem dupIndex_some {ids : List String} {i : ℕ} {id : String} {j : ℕ}
    (h : NeuraDB.dupIndex ids i id = some j) :
    ¬ j = i ∧ ∃ hj : j < ids.length, ids.get ⟨j, hj⟩ = id := by
  unfold NeuraDB.dupIndex at h
  cases hf : ids.enum.find? (fun p => decide (p.1 ≠ i) && decide (p.2 = id)) with
  | none =>
    rw [hf] at h
    simp at h
  | some q =>
    rw [hf] at h
    have hq1 : q.1 = j := by simpa using h
    have hp := List.find?_some hf
    have hmem := List.mem_of_find?_eq_some hf
    simp only [Bool.and_eq_true, decide_eq_true_eq] at hp
    rw [List.mem_enum_iff_getElem?] at hmem
    have hlt : q.1 < ids.length := by
      by_contra hcon
      push_neg at hcon
      rw [List.getElem?_eq_none hcon] at hmem
      simp at hmem
    have hval : ids[q.1] = q.2 := by
      rw [List.getElem?_eq_getElem hlt] at hmem
      simpa using hmem
    subst hq1
    refine ⟨hp.1, hlt, ?_⟩
    rw [List.get_eq_getElem, hval]
    exact hp.2

theorem docCheck_dup_shape {ids sids : List String} {ce : Bool} {dim : Option ℕ}
    {i : ℕ} {d : DocIn} (hid : ¬ jsTrim d.id = "")
    (hemb : NeuraDB.embPrecheckOK ce dim d = true) :
    ∀ e, NeuraDB.docCheck ids sids ce dim i d = some e →
      (∃ j, e = Err.duplicateIdInput d.id i j ∧ ¬ j = i ∧
        ∃ hj : j < ids.length, ids.get ⟨j, hj⟩ = d.id)
      ∨ (e = Err.duplicateIdStore d.id ∧ sids.any (fun x => x = d.id) = true) := by
  intro e h
  unfold NeuraDB.docCheck at h
  rw [if_neg hid] at h
  split at h
  · rename_i j heq
    cases h
    obtain ⟨hne, hj, hget⟩ := dupIndex_some heq
    exact Or.inl ⟨j, rfl, hne, hj, hget⟩
  · split at h
    · rename_i hany
      cases h
      exact Or.inr ⟨rfl, hany⟩
    · unfold NeuraDB.embPrecheckOK at hemb
      cases ce with
      | true =>
        rw [if_pos rfl] at h hemb
        split at h
        · rename_i hcond
          simp at hemb hcond
          rcases hcond with ⟨hn, ht⟩
          rcases hemb with h1 | h1
          · rw [hn] at h1
            simp at h1
          · exact absurd ht h1
        · simp at h
      | false =>
        rw [if_neg (by simp)] at h hemb
        cases dim with
        | none =>
          cases hde : d.embedding with
          | none =>
            rw [hde] at hemb
            exact absurd (show (false : Bool) = true from hemb) (by simp)
          | some e2 =>
            rw [hde] at h hemb
            have h2 : (if e2.isEmpty = true then some (Err.invalidEmbeddingAt i d.id)
                else none) = some e := h
            have hemb2 : (if e2.isEmpty = true then false else (true : Bool)) = true := hemb
            by_cases hempty : e2.isEmpty = true
            · rw [if_pos hempty] at hemb2
              simp at hemb2
            · rw [if_neg hempty] at h2
              simp at h2
        | some dv =>
          cases hde : d.embedding with
          | none =>
            rw [hde] at hemb
            exact absurd (show (false : Bool) = true from hemb) (by simp)
          | some e2 =>
            rw [hde] at h hemb
            have h2 : (if e2.isEmpty = true then some (Err.invalidEmbeddingAt i d.id)
                else if e2.length = dv then none
                else some (Err.dimensionMismatchAt i d.id e2.length dv)) = some e := h
            have hemb2 : (if e2.isEmpty = true then false
                else decide (e2.length = dv)) = true := hemb
            by_cases hempty : e2.isEmpty = true
            · rw [if_pos hempty] at hemb2
              simp at hemb2
            · rw [if_neg hempty] at h2 hemb2
              rw [if_pos (by simpa using hemb2)] at h2
              simp at h2

theorem dupIndex_ne_none {ids : List String} {i : ℕ} {id : String}
    (j : ℕ) (hj : j < ids.length) (hne : ¬ j = i) (hid : ids.get ⟨j, hj⟩ = id) :
    ¬ NeuraDB.dupIndex ids i id = none := by
  unfold NeuraDB.dupIndex
  intro hcon
  rw [Option.map_eq_none'] at hcon
  have hmem : (j, id) ∈ ids.enum := by
    rw [List.mk_mem_enum_iff_getElem?, List.getElem?_eq_getElem hj]
    rw [List.get_eq_getElem] at hid
    rw [hid]
  have := List.find?_eq_none.mp hcon _ hmem
  simp at this
  exact absurd this hne

theorem docCheck_fires {ids sids : List String} {ce : Bool} {dim : Option ℕ}
    {i : ℕ} {d : DocIn} (hid : ¬ jsTrim d.id = "")
    (hdup : ¬ NeuraDB.dupIndex ids i d.id = none
            ∨ sids.any (fun x => x = d.id) = true) :
    ¬ NeuraDB.docCheck ids sids ce dim i d = none := by
  unfold NeuraDB.docCheck
  rw [if_neg hid]
  cases hd : NeuraDB.dupIndex ids i d.id with
  | some j => simp
  | none =>
    rcases hdup with h | h
    · exact absurd hd h
    · simp [h]

/-- C8 (amended): provided every input document has a non-blank id and
passes the per-document embedding/content precheck, a duplicate id inside
the batch or an id already present in the table makes `addDocuments` fail
with a `DuplicateId` error before any embedding-provider call (empty
trace), leaving the store untouched; an in-batch duplicate yields
`duplicateIdInput` naming both conflicting indices (which both carry the
offending id), and a table collision yields `duplicateIdStore` for an id
that is in the batch and in the table; without those guards an earlier
per-document check can fire first with a different error. -/
theorem claim_C8_duplicate_ids (f : Provider) (now : ℕ) (s : State)
    (docs : List DocIn) (opts : NeuraDB.AddDocumentsOptions)
    (hids : ∀ d ∈ docs, ¬ jsTrim d.id = "")
    (hemb : ∀ d ∈ docs,
      NeuraDB.embPrecheckOK opts.createEmbedding (getEmbeddingDimensions s) d = true)
    (hdup : (∃ i j : Fin docs.length, ¬ i = j ∧ (docs.get i).id = (docs.get j).id)
            ∨ (∃ d ∈ docs, hasDocument s d.id = true)) :
    ∃ e, NeuraDB.addDocuments f now s docs opts = (.error e, [])
      ∧ e.isDuplicateId = true
      ∧ ((∃ id i j, e = Err.duplicateIdInput id i j ∧ ¬ i = j ∧
            ∃ (hi : i < docs.length) (hj : j < docs.length),
              (docs.get ⟨i, hi⟩).id = id ∧ (docs.get ⟨j, hj⟩).id = id)
         ∨ (∃ id, e = Err.duplicateIdStore id ∧ (∃ d ∈ docs, d.id = id)
              ∧ hasDocument s id = true)) := by
  have hne : docs ≠ [] := by
    rcases hdup with ⟨i, _, _, _⟩ | ⟨d, hd, _⟩
    · intro hcon
      subst hcon
      exact absurd i.isLt (by simp)
    · intro hcon
      subst hcon
      simp at hd
  have hpre : ¬ NeuraDB.preValidate s docs opts.createEmbedding = none := by
    intro hnone
    unfold NeuraDB.preValidate at hnone
    have hfin := preValidateAux_none docs 0 hnone
    rcases hdup with ⟨i, j, hij, hideq⟩ | ⟨d, hd, hhas⟩
    · have hmemi : docs.get i ∈ docs := docs.get_mem _ i.isLt
      have hjlen : (j : ℕ) < (docs.map (fun d => d.id)).length := by
        rw [List.length_map]
        exact j.isLt
      have hgetj : (docs.map (fun d => d.id)).get ⟨(j : ℕ), hjlen⟩ = (docs.get i).id := by
        simp only [List.get_eq_getElem, List.getElem_map]
        simp only [List.get_eq_getElem] at hideq
        exact hideq.symm
      have hji : ¬ (j : ℕ) = (i : ℕ) := fun hcon => hij (Fin.ext hcon.symm)
      have hfires := @docCheck_fires (docs.map (fun d => d.id))
        (s.map (fun d => d.id)) opts.createEmbedding (getEmbeddingDimensions s)
        (i : ℕ) (docs.get i) (hids _ hmemi)
        (Or.inl (dupIndex_ne_none (j : ℕ) hjlen hji hgetj))
      exact hfires (by simpa using hfin i)
    · obtain ⟨iF, hiF⟩ := List.mem_iff_get.mp hd
      have hany : (s.map (fun d => d.id)).any (fun x => x = d.id) = true := by
        rw [any_map_id]
        exact hhas
      have hfires := @docCheck_fires (docs.map (fun d => d.id))
        (s.map (fun d => d.id)) opts.createEmbedding (getEmbeddingDimensions s)
        (iF : ℕ) d (hids d hd) (Or.inr hany)
      have hi := hfin iF
      rw [hiF] at hi
      exact hfires (by simpa using hi)
  obtain ⟨e, he⟩ := Option.ne_none_iff_exists'.mp hpre
  have he2 := he
  unfold NeuraDB.preValidate at he2
  obtain ⟨k, hk, hdc⟩ := preValidateAux_some docs 0 e he2
  rw [Nat.zero_add] at hdc
  have hmemk : docs.get ⟨k, hk⟩ ∈ docs := docs.get_mem _ hk
  have hshape := docCheck_dup_shape (hids _ hmemk) (hemb _ hmemk) e hdc
  have hdupE : e.isDuplicateId = true := by
    rcases hshape with ⟨j, rfl, _⟩ | ⟨rfl, _⟩ <;> rfl
  refine ⟨e, ?_, hdupE, ?_⟩
  · unfold NeuraDB.addDocuments
    rw [if_neg (by simpa [List.isEmpty_iff] using hne), he]
  · rcases hshape with ⟨j, rfl, hjk, hj, hget⟩ | ⟨rfl, hany⟩
    · left
      have hjd : j < docs.length := by simpa using hj
      refine ⟨(docs.get ⟨k, hk⟩).id, k, j, rfl,
        fun hcon => hjk hcon.symm, hk, hjd, rfl, ?_⟩
      simp only [List.get_eq_getElem, List.getElem_map] at hget
      simp only [List.get_eq_getElem]
      exact hget
    · right
      refine ⟨(docs.get ⟨k, hk⟩).id, rfl, ⟨docs.get ⟨k, hk⟩, hmemk, rfl⟩, ?_⟩
      unfold hasDocument
      rw [← any_map_id]
      exact hany

/-- C8 witness: the spec's scenario — a batch whose two documents both
carry `id = "doc1"` — fails concretely with
`duplicateIdInput "doc1" 0 1`, naming both conflicting indices, with no
provider call and the store untouched; the general theorem instantiates
to this batch. -/
theorem claim_C8_witness :
    NeuraDB.addDocuments provider0 0 [] [dinDup1, dinDup2] {} =
      (.error (.duplicateIdInput "doc1" 0 1), [])
    ∧ dinDup1.id = "doc1" ∧ dinDup2.id = "doc1" ∧ ¬ (0 : ℕ) = 1
    ∧ (∃ e, NeuraDB.addDocuments provider0 0 [] [dinDup1, dinDup2] {} = (.error e, [])
        ∧ e.isDuplicateId = true
        ∧ ((∃ id i j, e = Err.duplicateIdInput id i j ∧ ¬ i = j ∧
              ∃ (hi : i < ([dinDup1, dinDup2] : List DocIn).length)
                (hj : j < ([dinDup1, dinDup2] : List DocIn).length),
                (([dinDup1, dinDup2] : List DocIn).get ⟨i, hi⟩).id = id
                ∧ (([dinDup1, dinDup2] : List DocIn).get ⟨j, hj⟩).id = id)
           ∨ (∃ id, e = Err.duplicateIdStore id
                ∧ (∃ d ∈ ([dinDup1, dinDup2] : List DocIn), d.id = id)
                ∧ hasDocument [] id = true))) := by
  refine ⟨rfl, rfl, rfl, by norm_num, ?_⟩
  exact claim_C8_duplicate_ids provider0 0 [] [dinDup1, dinDup2] {}
    (by decide) (by decide)
    (Or.inl ⟨⟨0, by norm_num⟩, ⟨1, by norm_num⟩, by decide, by decide⟩)

/-- C8 counterexample: two input documents sharing the id `""` do fail,
but with the invalid-id validation error, not `DuplicateId` — the id
checks of the pre-validation loop run before the duplicate checks. -/
theorem claim_C8_counterexample :
    NeuraDB.addDocuments provider0 0 [] [dinNoId1, dinNoId2] {} =
      (.error (.invalidIdAt 0), [])
    ∧ Err.isDuplicateId (.invalidIdAt 0) = false
    ∧ dinNoId1.id = dinNoId2.id := by
  refine ⟨?_, rfl, rfl⟩
  rfl

/-! ### Claim C9 — createdAt / updatedAt stamping -/

theorem find?_map_replace (d : Doc) :
    ∀ s : State, s.any (fun x => x.id = d.id) = true →
      (s.map (fun x => if x.id = d.id then d else x)).find? (fun x => x.id = d.id) =
        some d := by
  intro s
  induction s with
  | nil => intro h; simp at h
  | cons y t ih =>
    intro h
    simp only [List.map_cons]
    by_cases hy : y.id = d.id
    · rw [if_pos hy]
      rw [List.find?_cons_of_pos _ (by simp)]
    · rw [if_neg hy]
      rw [List.find?_cons_of_neg _ (by simpa using hy)]
      apply ih
      simp only [List.any_cons] at h
      rcases Bool.or_eq_true_iff.mp h with h1 | h1
      · exact absurd (by simpa using h1) hy
      · exact h1

theorem find?_append_new (d : Doc) :
    ∀ s : State, s.any (fun x => x.id = d.id) = false →
      (s ++ [d]).find? (fun x => x.id = d.id) = some d := by
  intro s
  induction s with
  | nil =>
    intro _
    rw [List.nil_append, List.find?_cons_of_pos _ (by simp)]
  | cons y t ih =>
    intro h
    simp only [List.any_cons, Bool.or_eq_false_iff] at h
    rw [List.cons_append, List.find?_cons_of_neg _ (by simpa using h.1)]
    exact ih (by simpa using h.2)

theorem find?_mapSet (s : State) (d : Doc) :
    (mapSet s d).find? (fun x => x.id = d.id) = some d := by
  unfold mapSet
  by_cases hany : s.any (fun x => x.id = d.id) = true
  · rw [if_pos hany]
    exact find?_map_replace d s hany
  · rw [if_neg hany]
    exact find?_append_new d s (Bool.not_eq_true _ ▸ hany)

theorem updateResolved_state {f : Provider} {now : ℕ} {s : State} {din : DocIn}
    {ce : Bool} {ex : Doc} {s' : State} {b : Bool} {tr : Trace}
    (h : NeuraDB.updateResolved f now s din ce ex = (.ok (s', b), tr)) :
    ∃ emb, s' = mapSet s { id := din.id, content := din.content, embedding := emb,
                           metadata := din.metadata, createdAt := ex.createdAt,
                           updatedAt := now } := by
  unfold NeuraDB.updateResolved at h
  split at h
  · simp at h
  · split at h
    · simp at h
    · split at h
      · simp only [Prod.mk.injEq, Except.ok.injEq] at h
        exact ⟨_, h.1.1.symm⟩
      · simp at h

/-- C9 (amended): `updateDocument` preserves the stored document's
`createdAt` and refreshes `updatedAt` to the current time; `addDocument`
always stamps `createdAt` from the *input* document (falling back to the
current time when the input carries none) and `updatedAt` to the current
time — so re-inserting an existing id via `addDocument` without a
`createdAt` on the input overwrites the original `createdAt` rather than
preserving it. -/
theorem claim_C9_timestamps (f : Provider) (now : ℕ) (s : State) (din : DocIn)
    (ce : Bool) :
    (∀ ex s' tr, s.find? (fun d => d.id = din.id) = some ex →
      NeuraDB.updateDocument f now s din ce = (.ok (s', true), tr) →
      (s'.find? (fun d => d.id = din.id)).map (fun d => d.createdAt) = some ex.createdAt
      ∧ (s'.find? (fun d => d.id = din.id)).map (fun d => d.updatedAt) = some now)
    ∧ (∀ s' tr, NeuraDB.addDocument f now s din ce = (.ok s', tr) →
      (s'.find? (fun d => d.id = din.id)).map (fun d => (d.createdAt, d.updatedAt)) =
        some (din.createdAt.getD now, now)) := by
  constructor
  · intro ex s' tr hfind h
    unfold NeuraDB.updateDocument at h
    rw [hfind] at h
    have h2 : NeuraDB.updateResolved f now s din ce ex = (.ok (s', true), tr) := h
    obtain ⟨emb, rfl⟩ := updateResolved_state h2
    have hf := find?_mapSet s
      { id := din.id, content := din.content, embedding := emb,
        metadata := din.metadata, createdAt := ex.createdAt, updatedAt := now }
    rw [hf]
    exact ⟨rfl, rfl⟩
  · intro s' tr h
    obtain ⟨emb, rfl, _, _⟩ := addDocument_ok h
    have hf : (mapSet s (NeuraDB.stampDoc now din emb)).find?
        (fun d => d.id = din.id) = some (NeuraDB.stampDoc now din emb) :=
      find?_mapSet s (NeuraDB.stampDoc now din emb)
    rw [hf]
    rfl

/-- C9 witness: updating the stored document `a` at time 7 keeps its
original `createdAt = 0` and refreshes `updatedAt` to 7; adding a fresh
document without an input `createdAt` stamps both timestamps with now. -/
theorem claim_C9_witness :
    (([{ id := "a", content := "u", embedding := [1], createdAt := 0,
         updatedAt := 7 }] : State).find? (fun d => d.id = "a")).map
        (fun d => d.createdAt) = some 0
    ∧ (([{ id := "a", content := "u", embedding := [1], createdAt := 0,
           updatedAt := 7 }] : State).find? (fun d => d.id = "a")).map
        (fun d => d.updatedAt) = some 7
    ∧ (([docA, { id := "b", content := "c", embedding := [1], createdAt := 9,
                 updatedAt := 9 }] : State).find? (fun d => d.id = "b")).map
        (fun d => (d.createdAt, d.updatedAt)) = some (9, 9) := by
  have h := claim_C9_timestamps provider0 7 [docA]
    { id := "a", content := "u", embedding := some [1] } false
  have h1 := h.1 docA
    [{ id := "a", content := "u", embedding := [1], createdAt := 0, updatedAt := 7 }]
    [] (by rfl) (by rfl)
  have h2 := claim_C9_timestamps provider0 9 [docA]
    { id := "b", content := "c", embedding := some [1] } false
  have h3 := h2.2
    [docA, { id := "b", content := "c", embedding := [1], createdAt := 9, updatedAt := 9 }]
    [] (by rfl)
  exact ⟨h1.1, h1.2, h3⟩

/-- C9 counterexample: re-inserting the existing id `a` via `addDocument`
with no `createdAt` on the input does not leave the original `createdAt`
intact — the stored `createdAt` changes from 0 to the new call time 1. -/
theorem claim_C9_counterexample :
    (NeuraDB.addDocument provider0 0 [] dinA).1 =
      .ok [{ id := "a", content := "c", embedding := [1],
             createdAt := 0, updatedAt := 0 }]
    ∧ (NeuraDB.addDocument provider0 1
        [{ id := "a", content := "c", embedding := [1],
           createdAt := 0, updatedAt := 0 }] dinA).1 =
      .ok [{ id := "a", content := "c", embedding := [1],
             createdAt := 1, updatedAt := 1 }]
    ∧ ¬ (1 : ℕ) = 0 := by
  exact ⟨rfl, rfl, by norm_num⟩
